import Mathlib

/-!
Verification of the DaZeus node.js client core (`src/dazeus.js`): the wire
framing codec (`dazeusify` / `dezeusify`), the reply correlator (`sendReceive` /
`received`), the event dispatcher (`handleEvent`) and the lazy subscription
hook (the `newListener` handler).

Strings of the JavaScript runtime are modelled as lists of Unicode scalar
values (`List Nat`); byte buffers are lists of byte values (`List Nat`).
`Buffer(s, 'utf8')` is modelled by `utf8Encode`, `buf.toString('utf8')` by
`utf8Decode` (which, like node, substitutes U+FFFD for malformed sequences).
JSON values are modelled by the mutual inductive `Json`, with `JSON.stringify`
modelled by `stringify` and `JSON.parse` by `jsonParse`.
-/

namespace DaZeus

/-- Scalar values of a Lean string literal, used to spell concrete JS strings. -/
def lit (s : String) : List Nat := s.data.map Char.toNat

/-- Test for an ASCII decimal digit, as in the source: `chr > 47 && chr < 58`. -/
def isDigitB (c : Nat) : Bool := 47 < c && c < 58

/-- Numeric value of a run of ASCII digit scalars (the behaviour of
`parseInt(collector, 10)` on an all-digit string). -/
def digitsVal (s : List Nat) : Nat := s.foldl (fun a d => a * 10 + (d - 48)) 0

/-- Model of `parseInt(collector, 10)` restricted to the decoder's use: the
collector only ever holds ASCII digits, and `parseInt('', 10)` is `NaN`,
modelled as `none`. -/
def parseIntOpt (s : List Nat) : Option Nat :=
  if s = [] then none else some (digitsVal s)

/-- Fuelled helper for the ASCII decimal rendering of a natural number. -/
def natDigitsF : Nat → Nat → List Nat
  | 0, _ => []
  | fuel + 1, n => if n < 10 then [48 + n] else natDigitsF fuel (n / 10) ++ [48 + n % 10]

/-- ASCII decimal rendering of a natural number (JS number-to-string coercion
for a nonnegative integer): most significant digit first, no leading zeros,
no sign. -/
def natDigits (n : Nat) : List Nat := natDigitsF (n + 1) n

/-- ASCII decimal rendering of an integer (JS number-to-string coercion for an
integral value). -/
def intStr (n : Int) : List Nat :=
  if n < 0 then 45 :: natDigits n.natAbs else natDigits n.natAbs

/-- UTF-8 encoding of one Unicode scalar value. -/
def encChar (c : Nat) : List Nat :=
  if c < 0x80 then [c]
  else if c < 0x800 then [0xC0 + c / 64, 0x80 + c % 64]
  else if c < 0x10000 then [0xE0 + c / 4096, 0x80 + c / 64 % 64, 0x80 + c % 64]
  else [0xF0 + c / 262144, 0x80 + c / 4096 % 64, 0x80 + c / 64 % 64, 0x80 + c % 64]

/-- UTF-8 encoding of a string of scalar values; models `Buffer(s, 'utf8')`
and `Buffer.byteLength(s, 'utf8')` (via `List.length`). -/
def utf8Encode (s : List Nat) : List Nat := (s.map encChar).flatten

/-- Test for a UTF-8 continuation byte. -/
def isCont (b : Nat) : Bool := 0x80 ≤ b && b < 0xC0

/-- Fuelled UTF-8 decoder; every step consumes at least one byte, so fuel
equal to the input length suffices. -/
def utf8DecodeF : Nat → List Nat → List Nat
  | 0, _ => []
  | fuel + 1, l =>
    match l with
    | [] => []
    | b :: bs =>
      if b < 0x80 then b :: utf8DecodeF fuel bs
      else if b < 0xC2 then 0xFFFD :: utf8DecodeF fuel bs
      else if b < 0xE0 then
        match bs with
        | b1 :: bs1 =>
          if isCont b1 then ((b - 0xC0) * 64 + (b1 - 0x80)) :: utf8DecodeF fuel bs1
          else 0xFFFD :: utf8DecodeF fuel (b1 :: bs1)
        | [] => [0xFFFD]
      else if b < 0xF0 then
        match bs with
        | b1 :: b2 :: bs2 =>
          if isCont b1 && isCont b2 then
            ((b - 0xE0) * 4096 + (b1 - 0x80) * 64 + (b2 - 0x80)) :: utf8DecodeF fuel bs2
          else 0xFFFD :: utf8DecodeF fuel (b1 :: b2 :: bs2)
        | _ => [0xFFFD]
      else if b < 0xF8 then
        match bs with
        | b1 :: b2 :: b3 :: bs3 =>
          if isCont b1 && isCont b2 && isCont b3 then
            ((b - 0xF0) * 262144 + (b1 - 0x80) * 4096 + (b2 - 0x80) * 64 + (b3 - 0x80)) ::
              utf8DecodeF fuel bs3
          else 0xFFFD :: utf8DecodeF fuel (b1 :: b2 :: b3 :: bs3)
        | _ => [0xFFFD]
      else 0xFFFD :: utf8DecodeF fuel bs

/-- UTF-8 decoding of a byte list; models `buf.toString('utf8')`.  Malformed
or truncated sequences decode to U+FFFD (65533), as node's Buffer does. -/
def utf8Decode (l : List Nat) : List Nat := utf8DecodeF l.length l

/-- Well-formedness of one scalar value of a JS string: in Unicode range. -/
def wfChar (c : Nat) : Bool := c < 0x110000

/-- Well-formedness of a JS string: every scalar in Unicode range. -/
def wfStr (s : List Nat) : Bool := s.all wfChar

mutual
/-- JSON values, the payloads carried by protocol frames.  Numbers are
modelled as integers (the protocol's numeric fields are integral). -/
inductive Json where
  | null : Json
  | bool (b : Bool) : Json
  | num (n : Int) : Json
  | str (s : List Nat) : Json
  | arr (a : JArr) : Json
  | obj (o : JObj) : Json

/-- A JSON array, as a dedicated list so the mutual recursion stays
structural. -/
inductive JArr where
  | nil : JArr
  | cons (hd : Json) (tl : JArr) : JArr

/-- A JSON object: an ordered association list of key/value members. -/
inductive JObj where
  | nil : JObj
  | cons (k : List Nat) (v : Json) (tl : JObj) : JObj
end

/-- JSON string escaping of one scalar, as `JSON.stringify` performs it on
strings free of control characters: only `"` and `\` are escaped. -/
def escapeChar (c : Nat) : List Nat := if c = 34 || c = 92 then [92, c] else [c]

/-- JSON string escaping of a whole string. -/
def escapeStr (s : List Nat) : List Nat := (s.map escapeChar).flatten

mutual
/-- Model of `JSON.stringify`: the canonical serialization node produces for
the modelled value space (objects keep member order, no added whitespace). -/
def stringify : Json → List Nat
  | .null => [110, 117, 108, 108]
  | .bool true => [116, 114, 117, 101]
  | .bool false => [102, 97, 108, 115, 101]
  | .num n => intStr n
  | .str s => 34 :: (escapeStr s ++ [34])
  | .arr a => 91 :: (stringifyArr a ++ [93])
  | .obj o => 123 :: (stringifyObj o ++ [125])

/-- Serialization of array elements, comma separated. -/
def stringifyArr : JArr → List Nat
  | .nil => []
  | .cons x .nil => stringify x
  | .cons x (.cons y tl) => stringify x ++ 44 :: stringifyArr (.cons y tl)

/-- Serialization of object members, comma separated. -/
def stringifyObj : JObj → List Nat
  | .nil => []
  | .cons k v .nil => 34 :: (escapeStr k ++ [34]) ++ 58 :: stringify v
  | .cons k v (.cons k' v' tl) =>
      34 :: (escapeStr k ++ [34]) ++ 58 :: stringify v ++ 44 :: stringifyObj (.cons k' v' tl)
end

/-- Well-formedness of a scalar inside a JSON string value of the model: a
valid non-surrogate scalar that is not a control character (frames of this
protocol never carry raw control characters inside JSON strings, and
`JSON.stringify` would escape them differently). -/
def wfJChar (c : Nat) : Bool :=
  32 ≤ c && (c < 0xD800 || (0xE000 ≤ c && c < 0x110000))

/-- Well-formedness of a JSON string value. -/
def wfJStr (s : List Nat) : Bool := s.all wfJChar

mutual
/-- Well-formedness of a modelled JSON value (all strings well formed). -/
def wfJson : Json → Bool
  | .null => true
  | .bool _ => true
  | .num _ => true
  | .str s => wfJStr s
  | .arr a => wfJArr a
  | .obj o => wfJObj o

/-- Well-formedness of a JSON array. -/
def wfJArr : JArr → Bool
  | .nil => true
  | .cons x tl => wfJson x && wfJArr tl

/-- Well-formedness of a JSON object. -/
def wfJObj : JObj → Bool
  | .nil => true
  | .cons k v tl => wfJStr k && wfJson v && wfJObj tl
end

/-- Number token of `JSON.parse`: a maximal nonempty digit run. -/
def parseNum (s : List Nat) : Option (Nat × List Nat) :=
  let ds := s.takeWhile isDigitB
  if ds = [] then none else some (digitsVal ds, s.dropWhile isDigitB)

/-- String-body scanner of `JSON.parse`: consumes up to and including the
closing quote, undoing `\"` and `\\` escapes; rejects control characters and
(in this model) the escape forms the encoder never emits. -/
def parseStrBody : List Nat → Option (List Nat × List Nat)
  | [] => none
  | c :: rest =>
    if c = 34 then some ([], rest)
    else if c = 92 then
      match rest with
      | [] => none
      | e :: rest1 =>
        if e = 34 || e = 92 then (parseStrBody rest1).map (fun p => (e :: p.1, p.2))
        else none
    else if 32 ≤ c then (parseStrBody rest).map (fun p => (c :: p.1, p.2))
    else none

mutual
/-- Value parser of the `JSON.parse` model, fuelled (fuel bounds the nesting
depth).  It accepts the serializations `stringify` produces. -/
def parseVal : Nat → List Nat → Option (Json × List Nat)
  | 0, _ => none
  | fuel + 1, s =>
    match s with
    | [] => none
    | c :: rest =>
      if c = 110 then
        if rest.take 3 = [117, 108, 108] then some (.null, rest.drop 3) else none
      else if c = 116 then
        if rest.take 3 = [114, 117, 101] then some (.bool true, rest.drop 3) else none
      else if c = 102 then
        if rest.take 4 = [97, 108, 115, 101] then some (.bool false, rest.drop 4) else none
      else if c = 34 then (parseStrBody rest).map (fun p => (.str p.1, p.2))
      else if c = 91 then
        if rest.headD 0 = 93 then some (.arr .nil, rest.tail)
        else (parseItems fuel rest).map (fun p => (.arr p.1, p.2))
      else if c = 123 then
        if rest.headD 0 = 125 then some (.obj .nil, rest.tail)
        else (parseMembers fuel rest).map (fun p => (.obj p.1, p.2))
      else if c = 45 then (parseNum rest).map (fun p => (.num (-(p.1 : Int)), p.2))
      else if isDigitB c then (parseNum (c :: rest)).map (fun p => (.num ((p.1 : Nat) : Int), p.2))
      else none

/-- Array-element parser: a nonempty comma-separated element list up to and
including the closing bracket. -/
def parseItems : Nat → List Nat → Option (JArr × List Nat)
  | 0, _ => none
  | fuel + 1, s =>
    (parseVal fuel s).bind fun p =>
      if p.2.headD 0 = 44 then
        (parseItems fuel p.2.tail).map (fun q => (.cons p.1 q.1, q.2))
      else if p.2.headD 0 = 93 then some (.cons p.1 .nil, p.2.tail)
      else none

/-- Object-member parser: a nonempty comma-separated member list up to and
including the closing brace. -/
def parseMembers : Nat → List Nat → Option (JObj × List Nat)
  | 0, _ => none
  | fuel + 1, s =>
    if s.headD 0 = 34 then
      (parseStrBody s.tail).bind fun k =>
        if k.2.headD 0 = 58 then
          (parseVal fuel k.2.tail).bind fun v =>
            if v.2.headD 0 = 44 then
              (parseMembers fuel v.2.tail).map (fun q => (.cons k.1 v.1 q.1, q.2))
            else if v.2.headD 0 = 125 then some (.cons k.1 v.1 .nil, v.2.tail)
            else none
        else none
    else none
end

/-- Whitespace as `JSON.parse` skips it around a document. -/
def isWsB (c : Nat) : Bool := c = 32 || c = 9 || c = 10 || c = 13

/-- Model of `JSON.parse`: optional surrounding whitespace around a single
document. -/
def jsonParse (s : List Nat) : Option Json :=
  let s1 := s.dropWhile isWsB
  match parseVal (s1.length + 1) s1 with
  | some (v, r) => if r.all isWsB then some v else none
  | none => none

mutual
/-- Fuel needed by `parseVal` to parse the serialization of a value. -/
def jdepth : Json → Nat
  | .null => 1
  | .bool _ => 1
  | .num _ => 1
  | .str _ => 1
  | .arr a => jdepthA a + 1
  | .obj o => jdepthO o + 1

/-- Fuel needed by `parseItems` for the serialization of an array. -/
def jdepthA : JArr → Nat
  | .nil => 1
  | .cons x tl => max (jdepth x) (jdepthA tl) + 1

/-- Fuel needed by `parseMembers` for the serialization of an object. -/
def jdepthO : JObj → Nat
  | .nil => 1
  | .cons _ v tl => max (jdepth v) (jdepthO tl) + 1
end

/-! ## The frame codec (`dazeusify` / `dezeusify`, src/dazeus.js 688-724) -/

/-- Fuelled model of the scanning loop of `dezeusify` (src/dazeus.js 705-721).
`data` is the byte buffer, `i` the loop index, `collector` the accumulated
digit run, `objs` the messages parsed so far.  A `JSON.parse` exception is
`.error ()`.  Each iteration either advances `i` or strictly shrinks `data`
while resetting `i` to 1 (the `i = 0` assignment followed by the loop's
`i += 1`), so fuel `2 * data.length + 1` always suffices. -/
def scanLoopF : Nat → List Nat → Nat → List Nat → List Json →
    Except Unit (List Json × List Nat)
  | 0, data, _, _, objs => .ok (objs, data)
  | fuel + 1, data, i, collector, objs =>
    if i < data.length then
      if isDigitB (data.getD i 0) then
        scanLoopF fuel data (i + 1) (collector ++ [data.getD i 0]) objs
      else if data.getD i 0 ≠ 10 ∧ data.getD i 0 ≠ 13 then
        match parseIntOpt collector with
        | none => .ok (objs, data)
        | some msglen =>
          if msglen + i ≤ data.length then
            match jsonParse (utf8Decode ((data.drop i).take msglen)) with
            | some obj => scanLoopF fuel (data.drop (i + msglen)) 1 [] (objs ++ [obj])
            | none => .error ()
          else .ok (objs, data)
      else scanLoopF fuel data (i + 1) collector objs
    else .ok (objs, data)

/-- The scanning loop of `dezeusify` with sufficient fuel. -/
def scanLoop (data : List Nat) (i : Nat) (collector : List Nat) (objs : List Json) :
    Except Unit (List Json × List Nat) :=
  scanLoopF (2 * data.length + 1) data i collector objs

/-- Model of `dezeusify` (src/dazeus.js 699-724): append the incoming string
to the retained `this.data`, re-encode to bytes, run the scanning loop, and
keep the undecoded tail (converted back to a string) for the next call. -/
def dezeusify (stateData msg : List Nat) : Except Unit (List Json × List Nat) :=
  match scanLoop (utf8Encode (stateData ++ msg)) 0 [] [] with
  | .ok (objs, rem) => .ok (objs, utf8Decode rem)
  | .error e => .error e

/-- Model of `dazeusify` (src/dazeus.js 688-692): the UTF-8 byte length of the
serialized JSON as a decimal string, then the JSON text, then CRLF. -/
def dazeusify (message : Json) : List Nat :=
  natDigits (utf8Encode (stringify message)).length ++ (stringify message ++ [13, 10])

/-- The client's socket `data` handler restricted to decoding (src/dazeus.js
52-57): each byte chunk is converted to a string with `toString('utf8')` and
handed to `dezeusify`; decoded messages accumulate across chunks. -/
def decodeStream : List Nat → List (List Nat) → Except Unit (List Json × List Nat)
  | d, [] => .ok ([], d)
  | d, chunk :: rest =>
    match dezeusify d (utf8Decode chunk) with
    | .error e => .error e
    | .ok (objs, d') =>
      match decodeStream d' rest with
      | .error e => .error e
      | .ok (objs', d'') => .ok (objs ++ objs', d'')

/-- The digit prefix and JSON payload bytes of one frame on the wire (the part
whose full presence lets the decoder emit the frame). -/
def frameCore (m : Json) : List Nat :=
  natDigits (utf8Encode (stringify m)).length ++ utf8Encode (stringify m)

/-- The complete wire encoding of one frame, in bytes. -/
def wireBytes (m : Json) : List Nat := frameCore m ++ [13, 10]

/-- The wire encoding of a sequence of frames. -/
def wireStream (ms : List Json) : List Nat := (ms.map wireBytes).flatten

/-- The wire encoding of a sequence of frames at the string level (the
concatenation of the strings `dazeusify` produces). -/
def streamStr (ms : List Json) : List Nat := (ms.map dazeusify).flatten

/-- Reference decoder used to state what the scanning loop does on a prefix of
a well-formed wire stream: emit every frame whose digits and payload are fully
present; the pair's second component is only meaningful when at least one
frame was emitted (the loop then sliced the buffer), the caller otherwise
keeps the whole input. -/
def specD : List Json → List Nat → List Json × List Nat
  | [], s => ([], s)
  | m :: tl, s =>
    if s.length < (frameCore m).length then ([], s)
    else
      match s.drop (frameCore m).length with
      | [] => ([m], [])
      | [13] => ([m], [13])
      | 13 :: 10 :: s2 =>
        let r := specD tl s2
        (m :: r.1, if r.1.isEmpty then 13 :: 10 :: s2 else r.2)
      | other => ([m], other)

/-! ## The dispatcher, correlator and subscription hook (src/dazeus.js 24-79,
593-667) -/

/-- A slot of `waitingCallbacks`: the JS code pushes whatever the caller
supplied, so a slot is a real caller callback, the acknowledgement closure
that `subscribeServerEvent` registers, or a non-function dummy (`undefined`). -/
inductive CB where
  | dummy : CB
  | user (id : Nat) : CB
  | subAck (evt : List Nat) : CB
deriving DecidableEq

/-- An observable invocation: a reply delivered to a queued callback, or an
event fanned out to one registered listener with its positional arguments. -/
inductive Inv where
  | reply (cb : CB) (msg : Json) : Inv
  | evt (l : Nat) (name : List Nat) (args : List Json) : Inv

/-- The mutable state of one `DaZeus` client: the undecoded string remainder
`this.data`, the FIFO `this.waitingCallbacks`, `this.subscribedEvents`, and
the event-emitter listener registry (name, listener id) in registration
order. -/
structure ClientState where
  data : List Nat
  waitingCallbacks : List CB
  subscribedEvents : List (List Nat)
  listeners : List (List Nat × Nat)

/-- The state of a freshly constructed client. -/
def initialState : ClientState := ⟨[], [], [], []⟩

/-- JS object property lookup on a parsed JSON object; with duplicate keys,
`JSON.parse` keeps the last occurrence. -/
def jlookup : JObj → List Nat → Option Json
  | .nil, _ => none
  | .cons k v tl, key =>
    match jlookup tl key with
    | some r => some r
    | none => if k = key then some v else none

/-- Property access `obj.key` on a decoded message. -/
def getField (j : Json) (key : List Nat) : Option Json :=
  match j with
  | .obj o => jlookup o key
  | _ => none

/-- `obj.event`, `none` when absent (`typeof obj.event === 'undefined'`). -/
def eventOf (j : Json) : Option Json := getField j (lit "event")

/-- `obj.params`. -/
def paramsOf (j : Json) : Option Json := getField j (lit "params")

/-- The elements of a JSON array as a Lean list. -/
def JArr.toList : JArr → List Json
  | .nil => []
  | .cons x tl => x :: JArr.toList tl

mutual
/-- JS string coercion `String(v)` of a decoded JSON value, as used by
`'command_' + parameters[3]` and by property-key coercion.  (For nested
arrays this is the JS join on the elements' coercions.) -/
def jsToStr : Json → List Nat
  | .null => lit "null"
  | .bool true => lit "true"
  | .bool false => lit "false"
  | .num n => intStr n
  | .str s => s
  | .arr a => jsToStrArr a
  | .obj _ => lit "[object Object]"

/-- JS string coercion of an array: comma-joined element coercions. -/
def jsToStrArr : JArr → List Nat
  | .nil => []
  | .cons x .nil => jsToStr x
  | .cons x (.cons y tl) => jsToStr x ++ 44 :: jsToStrArr (.cons y tl)
end

/-- String coercion of `parameters[3]`, which is `undefined` when the params
array has fewer than four elements: `'command_' + undefined` is
`"command_undefined"`. -/
def cmdSuffix : Option Json → List Nat
  | none => lit "undefined"
  | some v => jsToStr v

/-- The strict comparison `event === 'COMMAND'` (src/dazeus.js 662). -/
def isCommandTag : Json → Bool
  | .str s => s = lit "COMMAND"
  | _ => false

/-- The event name a message is dispatched under (src/dazeus.js 661-665):
`COMMAND` is re-tagged to `command_` plus the fourth positional parameter. -/
def dispatchName (ev : Json) (ps : List Json) : List Nat :=
  if isCommandTag ev then lit "command_" ++ cmdSuffix (ps.get? 3) else jsToStr ev

/-- Model of `handleEvent` (src/dazeus.js 661-667): compute the dispatch name,
then `emit` it, which invokes every listener registered under that name in
registration order with the event's parameters as individual arguments. -/
def handleEvent (listeners : List (List Nat × Nat)) (ev : Json) (ps : List Json) : List Inv :=
  let name := dispatchName ev ps
  (listeners.filter (fun l => l.1 == name)).map (fun l => Inv.evt l.2 name ps)

/-- Model of `received` (src/dazeus.js 636-654): an event-tagged message goes
to the event dispatch; otherwise the head of `waitingCallbacks` is popped and
invoked when it is a function.  `.error ()` models the `TypeError` thrown by
`parameters.unshift` when an event message carries no params array. -/
def received (st : ClientState) (obj : Json) : Except Unit (ClientState × List Inv) :=
  match eventOf obj with
  | some ev =>
    match paramsOf obj with
    | some (.arr a) => .ok (st, handleEvent st.listeners ev a.toList)
    | _ => .error ()
  | none =>
    match st.waitingCallbacks with
    | [] => .ok (st, [])
    | cb :: rest =>
      .ok ({ st with waitingCallbacks := rest },
        match cb with
        | .dummy => []
        | c => [Inv.reply c obj])

/-- The `forEach` over the messages one decode call produced (src/dazeus.js
54-56); a throw aborts the remaining iterations. -/
def processMsgs : ClientState → List Json → Except Unit (ClientState × List Inv)
  | st, [] => .ok (st, [])
  | st, m :: ms =>
    match received st m with
    | .error e => .error e
    | .ok (st1, invs) =>
      match processMsgs st1 ms with
      | .error e => .error e
      | .ok (st2, invs2) => .ok (st2, invs ++ invs2)

/-- The complete `data` handler (src/dazeus.js 52-57): decode the chunk (the
remainder is stored back into `this.data` before any callback runs), then
dispatch every decoded message. -/
def clientOnData (st : ClientState) (chunk : List Nat) : Except Unit (ClientState × List Inv) :=
  match dezeusify st.data (utf8Decode chunk) with
  | .error e => .error e
  | .ok (objs, rem) => processMsgs { st with data := rem } objs

/-- Deliver a sequence of byte chunks to the `data` handler. -/
def processChunks : ClientState → List (List Nat) → Except Unit (ClientState × List Inv)
  | st, [] => .ok (st, [])
  | st, c :: cs =>
    match clientOnData st c with
    | .error e => .error e
    | .ok (st1, invs) =>
      match processChunks st1 cs with
      | .error e => .error e
      | .ok (st2, invs2) => .ok (st2, invs ++ invs2)

/-- Model of `sendReceive` (src/dazeus.js 604-612): push the callback (real
or dummy) onto the FIFO, then write the encoded request.  The second
component is the request written to the wire. -/
def sendReceive (st : ClientState) (msg : Json) (cb : CB) : ClientState × List Json :=
  ({ st with waitingCallbacks := st.waitingCallbacks ++ [cb] }, [msg])

/-- A sequence of `sendReceive` calls, accumulating the wire traffic. -/
def sendSeq : ClientState → List (Json × CB) → ClientState × List Json
  | st, [] => (st, [])
  | st, (msg, cb) :: rest =>
    let r := sendReceive st msg cb
    let r2 := sendSeq r.1 rest
    (r2.1, r.2 ++ r2.2)

/-- The request object `{do:'subscribe', params:[evt]}`. -/
def mkSubscribeMsg (evt : List Nat) : Json :=
  .obj (.cons (lit "do") (.str (lit "subscribe"))
    (.cons (lit "params") (.arr (.cons (.str evt) .nil)) .nil))

/-- Model of `subscribeServerEvent` (src/dazeus.js 618-628): a `sendReceive`
of the subscribe request with its acknowledgement closure, then the event name
is pushed onto `subscribedEvents`. -/
def subscribeServerEvent (st : ClientState) (evt : List Nat) : ClientState × List Json :=
  let r := sendReceive st (mkSubscribeMsg evt) (CB.subAck evt)
  ({ r.1 with subscribedEvents := r.1.subscribedEvents ++ [evt] }, r.2)

/-- ASCII upper-casing of one scalar (`String.prototype.toUpperCase` on the
ASCII event names the protocol uses). -/
def toUpperChar (c : Nat) : Nat := if 97 ≤ c && c ≤ 122 then c - 32 else c

/-- The test `evt.toUpperCase() === evt`. -/
def isUpperName (s : List Nat) : Bool := s.map toUpperChar == s

/-- `Array.prototype.indexOf`: the index of the first occurrence, or -1. -/
def jsIndexOf : List (List Nat) → List Nat → Int
  | [], _ => -1
  | y :: ys, x =>
    if y = x then 0
    else
      let r := jsIndexOf ys x
      if r = -1 then -1 else r + 1

/-- A JS value as needed to trace the hook's condition: a number or a
boolean. -/
inductive JsVal where
  | num (n : Int) : JsVal
  | bool (b : Bool) : JsVal

/-- JS logical negation `!v` with its numeric coercion: `!0` is `true`, any
other number negates to `false` (no `NaN` arises here). -/
def jsNot : JsVal → Bool
  | .num n => n == 0
  | .bool b => !b

/-- JS strict equality `===` between the value shapes arising in the hook:
values of different types are never strictly equal. -/
def jsStrictEq : JsVal → JsVal → Bool
  | .num a, .num b => a == b
  | .bool a, .bool b => a == b
  | _, _ => false

/-- The condition of the `newListener` hook, exactly as written on
src/dazeus.js line 72:
`evt.toUpperCase() === evt && !this.subscribedEvents.indexOf(evt) !== -1`.
Note the precedence: `!` binds before `!==`, so the right conjunct compares a
boolean against the number -1 and is therefore always true. -/
def hookFires (subscribed : List (List Nat)) (evt : List Nat) : Bool :=
  isUpperName evt &&
    !(jsStrictEq (.bool (jsNot (.num (jsIndexOf subscribed evt)))) (.num (-1)))

/-- Model of registering a listener via `client.on(evt, listener)`: the
emitter fires `newListener` (running the hook of src/dazeus.js 70-75) before
the listener is appended to the registry.  The second component is the wire
traffic the registration caused. -/
def onListener (st : ClientState) (evt : List Nat) (l : Nat) : ClientState × List Json :=
  let r := if hookFires st.subscribedEvents evt then subscribeServerEvent st evt else (st, [])
  ({ r.1 with listeners := r.1.listeners ++ [(evt, l)] }, r.2)

/-- The request object built by `DaZeus.prototype.join` (src/dazeus.js
341-344). -/
def joinMsg (network channel : List Nat) : Json :=
  .obj (.cons (lit "do") (.str (lit "join"))
    (.cons (lit "params") (.arr (.cons (.str network) (.cons (.str channel) .nil))) .nil))

/-- `DaZeus.prototype.join`: a `sendReceive` of the join request. -/
def joinCall (st : ClientState) (network channel : List Nat) (cb : CB) :
    ClientState × List Json :=
  sendReceive st (joinMsg network channel) cb

/-- A frame the encoder can legitimately carry: a JSON object (frames are
always objects on the wire) whose strings are well formed. -/
def frameOK (m : Json) : Bool :=
  (match m with | .obj _ => true | _ => false) && wfJson m

/-- A reply frame: a well-formed frame without an `event` field. -/
def replyOK (m : Json) : Bool := frameOK m && (eventOf m).isNone

/-! ## Lemmas about decimal digit strings -/

theorem natDigitsF_irrel : ∀ f g n, n < f → n < g → natDigitsF f n = natDigitsF g n := by
  intro f
  induction f with
  | zero => intro g n h; omega
  | succ f ih =>
    intro g n hf hg
    match g, hg with
    | g + 1, _ =>
      simp only [natDigitsF]
      by_cases h10 : n < 10
      · simp [h10]
      · have hn : 0 < n := by omega
        have hd : n / 10 < n := Nat.div_lt_self hn (by norm_num)
        simp only [h10, if_false]
        rw [ih g (n / 10) (by omega) (by omega)]

theorem natDigits_eq (n : Nat) :
    natDigits n = if n < 10 then [48 + n] else natDigits (n / 10) ++ [48 + n % 10] := by
  by_cases h10 : n < 10
  · simp [natDigits, natDigitsF, h10]
  · have hn : 0 < n := by omega
    have hd : n / 10 < n := Nat.div_lt_self hn (by norm_num)
    have e1 : natDigits n = natDigitsF n (n / 10) ++ [48 + n % 10] := by
      show natDigitsF (n + 1) n = _
      rw [natDigitsF]
      simp [h10]
    rw [e1, natDigitsF_irrel n (n / 10 + 1) (n / 10) (by omega) (by omega), if_neg h10]
    rfl

theorem natDigits_ne_nil (n : Nat) : natDigits n ≠ [] := by
  rw [natDigits_eq]
  by_cases h10 : n < 10 <;> simp [h10]

theorem natDigits_all_digit (n : Nat) : ∀ c ∈ natDigits n, isDigitB c = true := by
  induction n using Nat.strong_induction_on with
  | _ n ih =>
    rw [natDigits_eq]
    by_cases h10 : n < 10
    · simp only [h10, if_true, List.mem_singleton]
      rintro c rfl
      simp only [isDigitB, Bool.and_eq_true, decide_eq_true_eq]
      omega
    · have hn : 0 < n := by omega
      have hd : n / 10 < n := Nat.div_lt_self hn (by norm_num)
      simp only [h10, if_false, List.mem_append, List.mem_singleton]
      rintro c (hc | rfl)
      · exact ih (n / 10) hd c hc
      · simp only [isDigitB, Bool.and_eq_true, decide_eq_true_eq]
        have := Nat.mod_lt n (show 0 < 10 by norm_num)
        omega

theorem digitsVal_append_singleton (l : List Nat) (d : Nat) :
    digitsVal (l ++ [d]) = digitsVal l * 10 + (d - 48) := by
  simp [digitsVal, List.foldl_append]

theorem digitsVal_natDigits (n : Nat) : digitsVal (natDigits n) = n := by
  induction n using Nat.strong_induction_on with
  | _ n ih =>
    rw [natDigits_eq]
    by_cases h10 : n < 10
    · simp [h10, digitsVal]
    · have hn : 0 < n := by omega
      have hd : n / 10 < n := Nat.div_lt_self hn (by norm_num)
      simp only [h10, if_false]
      rw [digitsVal_append_singleton, ih (n / 10) hd]
      omega

theorem parseIntOpt_natDigits (n : Nat) : parseIntOpt (natDigits n) = some n := by
  simp [parseIntOpt, natDigits_ne_nil n, digitsVal_natDigits n]

theorem natDigits_head_ne_zero (n : Nat) (hn : 1 ≤ n) : (natDigits n).head? ≠ some 48 := by
  induction n using Nat.strong_induction_on with
  | _ n ih =>
    rw [natDigits_eq]
    by_cases h10 : n < 10
    · simp only [h10, if_true, List.head?_cons]
      intro h
      have : 48 + n = 48 := by exact Option.some_injective _ h
      omega
    · have hn0 : 0 < n := by omega
      have hd : n / 10 < n := Nat.div_lt_self hn0 (by norm_num)
      have h1 : 1 ≤ n / 10 := by
        have : 10 ≤ n := by omega
        exact Nat.one_le_div_iff (by norm_num) |>.mpr this
      simp only [h10, if_false]
      rcases h : natDigits (n / 10) with _ | ⟨c, cs⟩
      · exact absurd h (natDigits_ne_nil _)
      · have := ih (n / 10) hd h1
        rw [h] at this
        simpa using this

/-! ## Lemmas about the UTF-8 codec -/

theorem utf8Encode_nil : utf8Encode [] = [] := rfl

theorem utf8Encode_cons (c : Nat) (s : List Nat) :
    utf8Encode (c :: s) = encChar c ++ utf8Encode s := by
  simp [utf8Encode]

theorem utf8Encode_append (s t : List Nat) :
    utf8Encode (s ++ t) = utf8Encode s ++ utf8Encode t := by
  simp [utf8Encode]

theorem encChar_ascii (c : Nat) (h : c < 0x80) : encChar c = [c] := by
  simp [encChar, h]

theorem utf8Encode_ascii (s : List Nat) (h : ∀ c ∈ s, c < 0x80) : utf8Encode s = s := by
  induction s with
  | nil => rfl
  | cons c cs ih =>
    rw [utf8Encode_cons, encChar_ascii c (h c (by simp)),
      ih (fun x hx => h x (by simp [hx]))]
    rfl

theorem utf8DecodeF_irrel : ∀ f g l, l.length ≤ f → l.length ≤ g → utf8DecodeF f l = utf8DecodeF g l := by
  intro f
  induction f with
  | zero =>
    intro g l hf _
    have : l = [] := List.length_eq_zero.mp (by omega)
    subst this
    cases g <;> simp [utf8DecodeF]
  | succ f ih =>
    intro g l hf hg
    match l with
    | [] => cases g <;> simp [utf8DecodeF]
    | b :: bs =>
      match g, hg with
      | g + 1, hg =>
        simp only [List.length_cons] at hf hg
        simp only [utf8DecodeF]
        have ih0 : utf8DecodeF f bs = utf8DecodeF g bs := ih g bs (by omega) (by omega)
        by_cases h1 : b < 0x80
        · simp [h1, ih0]
        · by_cases h2 : b < 0xC2
          · simp [h1, h2, ih0]
          · by_cases h3 : b < 0xE0
            · simp only [h1, h2, h3, if_false, if_true]
              match bs, hf, hg, ih0 with
              | [], _, _, _ => rfl
              | b1 :: bs1, hf, hg, ih0 =>
                have ih1 : utf8DecodeF f bs1 = utf8DecodeF g bs1 :=
                  ih g bs1 (by simp at hf ⊢; omega) (by simp at hg ⊢; omega)
                by_cases hc : isCont b1 <;> simp [hc, ih0, ih1]
            · by_cases h4 : b < 0xF0
              · simp only [h1, h2, h3, h4, if_false, if_true]
                match bs, hf, hg, ih0 with
                | [], _, _, _ => rfl
                | [b1], _, _, _ => rfl
                | b1 :: b2 :: bs2, hf, hg, ih0 =>
                  have ih2 : utf8DecodeF f bs2 = utf8DecodeF g bs2 :=
                    ih g bs2 (by simp at hf ⊢; omega) (by simp at hg ⊢; omega)
                  by_cases hc : isCont b1 && isCont b2 <;> simp [hc, ih0, ih2]
              · by_cases h5 : b < 0xF8
                · simp only [h1, h2, h3, h4, h5, if_false, if_true]
                  match bs, hf, hg, ih0 with
                  | [], _, _, _ => rfl
                  | [b1], _, _, _ => rfl
                  | [b1, b2], _, _, _ => rfl
                  | b1 :: b2 :: b3 :: bs3, hf, hg, ih0 =>
                    have ih3 : utf8DecodeF f bs3 = utf8DecodeF g bs3 :=
                      ih g bs3 (by simp at hf ⊢; omega) (by simp at hg ⊢; omega)
                    by_cases hc : isCont b1 && (isCont b2 && isCont b3) <;>
                      simp [hc, ih0, ih3]
                · simp [h1, h2, h3, h4, h5, ih0]

theorem utf8Decode_nil : utf8Decode [] = [] := rfl

theorem utf8Decode_cons_ascii (b : Nat) (bs : List Nat) (h : b < 0x80) :
    utf8Decode (b :: bs) = b :: utf8Decode bs := by
  simp [utf8Decode, utf8DecodeF, h]

theorem utf8Decode_cons2 (b b1 : Nat) (bs : List Nat) (h1 : 0xC2 ≤ b) (h2 : b < 0xE0)
    (hc : isCont b1 = true) :
    utf8Decode (b :: b1 :: bs) = ((b - 0xC0) * 64 + (b1 - 0x80)) :: utf8Decode bs := by
  show utf8DecodeF (bs.length + 1 + 1) (b :: b1 :: bs) = _
  rw [utf8DecodeF]
  simp only [show ¬ b < 0x80 by omega, show ¬ b < 0xC2 by omega, h2,
    if_false, if_true, hc]
  rw [utf8DecodeF_irrel (bs.length + 1) bs.length bs (by omega) (by omega)]
  rfl

theorem utf8Decode_cons3 (b b1 b2 : Nat) (bs : List Nat) (h1 : 0xE0 ≤ b) (h2 : b < 0xF0)
    (hc1 : isCont b1 = true) (hc2 : isCont b2 = true) :
    utf8Decode (b :: b1 :: b2 :: bs) =
      ((b - 0xE0) * 4096 + (b1 - 0x80) * 64 + (b2 - 0x80)) :: utf8Decode bs := by
  show utf8DecodeF (bs.length + 2 + 1) (b :: b1 :: b2 :: bs) = _
  rw [utf8DecodeF]
  simp only [show ¬ b < 0x80 by omega, show ¬ b < 0xC2 by omega,
    show ¬ b < 0xE0 by omega, h2, if_false, if_true, hc1, hc2, Bool.and_self]
  rw [utf8DecodeF_irrel (bs.length + 2) bs.length bs (by omega) (by omega)]
  rfl

theorem utf8Decode_cons4 (b b1 b2 b3 : Nat) (bs : List Nat) (h1 : 0xF0 ≤ b) (h2 : b < 0xF8)
    (hc1 : isCont b1 = true) (hc2 : isCont b2 = true) (hc3 : isCont b3 = true) :
    utf8Decode (b :: b1 :: b2 :: b3 :: bs) =
      ((b - 0xF0) * 262144 + (b1 - 0x80) * 4096 + (b2 - 0x80) * 64 + (b3 - 0x80)) ::
        utf8Decode bs := by
  show utf8DecodeF (bs.length + 3 + 1) (b :: b1 :: b2 :: b3 :: bs) = _
  rw [utf8DecodeF]
  simp only [show ¬ b < 0x80 by omega, show ¬ b < 0xC2 by omega,
    show ¬ b < 0xE0 by omega, show ¬ b < 0xF0 by omega, h2, if_false, if_true,
    hc1, hc2, hc3, Bool.and_self]
  rw [utf8DecodeF_irrel (bs.length + 3) bs.length bs (by omega) (by omega)]
  rfl

theorem utf8Decode_encChar (c : Nat) (rest : List Nat) (h : wfChar c = true) :
    utf8Decode (encChar c ++ rest) = c :: utf8Decode rest := by
  simp only [wfChar, decide_eq_true_eq] at h
  by_cases h1 : c < 0x80
  · rw [encChar_ascii c h1]
    exact utf8Decode_cons_ascii c rest h1
  · by_cases h2 : c < 0x800
    · simp only [encChar, h1, h2, if_false, if_true, List.cons_append, List.nil_append]
      rw [utf8Decode_cons2 _ _ _ (by omega) (by omega)
        (by simp only [isCont, Bool.and_eq_true, decide_eq_true_eq]; omega),
        show ((0xC0 + c / 64) - 0xC0) * 64 + ((0x80 + c % 64) - 0x80) = c by omega]
    · by_cases h3 : c < 0x10000
      · simp only [encChar, h1, h2, h3, if_false, if_true, List.cons_append, List.nil_append]
        rw [utf8Decode_cons3 _ _ _ _ (by omega) (by omega)
          (by simp only [isCont, Bool.and_eq_true, decide_eq_true_eq]; omega)
          (by simp only [isCont, Bool.and_eq_true, decide_eq_true_eq]; omega),
          show ((0xE0 + c / 4096) - 0xE0) * 4096 + ((0x80 + c / 64 % 64) - 0x80) * 64 +
            ((0x80 + c % 64) - 0x80) = c by omega]
      · simp only [encChar, h1, h2, h3, if_false, List.cons_append, List.nil_append]
        rw [utf8Decode_cons4 _ _ _ _ _ (by omega) (by omega)
          (by simp only [isCont, Bool.and_eq_true, decide_eq_true_eq]; omega)
          (by simp only [isCont, Bool.and_eq_true, decide_eq_true_eq]; omega)
          (by simp only [isCont, Bool.and_eq_true, decide_eq_true_eq]; omega),
          show ((0xF0 + c / 262144) - 0xF0) * 262144 + ((0x80 + c / 4096 % 64) - 0x80) * 4096 +
            ((0x80 + c / 64 % 64) - 0x80) * 64 + ((0x80 + c % 64) - 0x80) = c by omega]

theorem utf8Decode_utf8Encode_append (s t : List Nat) (h : wfStr s = true) :
    utf8Decode (utf8Encode s ++ t) = s ++ utf8Decode t := by
  induction s with
  | nil => simp [utf8Encode_nil]
  | cons c cs ih =>
    simp only [wfStr, List.all_cons, Bool.and_eq_true] at h
    rw [utf8Encode_cons, List.append_assoc, utf8Decode_encChar c _ h.1, List.cons_append,
      ih (by simp [wfStr, h.2])]

theorem utf8Decode_utf8Encode (s : List Nat) (h : wfStr s = true) :
    utf8Decode (utf8Encode s) = s := by
  have e := utf8Decode_utf8Encode_append s [] h
  rw [List.append_nil] at e
  rw [e, utf8Decode_nil, List.append_nil]

/-! ## Step lemmas for the scanning loop -/

theorem scanLoopF_irrel : ∀ f g data i c o, 2 * data.length - i < f → 2 * data.length - i < g →
    scanLoopF f data i c o = scanLoopF g data i c o := by
  intro f
  induction f with
  | zero => intro g data i c o hf _; omega
  | succ f ih =>
    intro g data i c o hf hg
    match g, hg with
    | g + 1, hg =>
      rw [scanLoopF, scanLoopF]
      by_cases hi : i < data.length
      · simp only [hi, if_true]
        by_cases hd : isDigitB (data.getD i 0)
        · simp only [hd, if_true]
          exact ih g data (i + 1) _ o (by omega) (by omega)
        · simp only [hd, Bool.false_eq_true, if_false]
          by_cases hcr : data.getD i 0 ≠ 10 ∧ data.getD i 0 ≠ 13
          · rw [if_pos hcr, if_pos hcr]
            cases hpc : parseIntOpt c with
            | none => rfl
            | some msglen =>
              by_cases hle : msglen + i ≤ data.length
              · simp only [hle, if_true]
                cases hjp : jsonParse (utf8Decode ((data.drop i).take msglen)) with
                | some obj =>
                  apply ih
                  · simp only [List.length_drop]; omega
                  · simp only [List.length_drop]; omega
                | none => rfl
              · simp only [hle, if_false]
          · rw [if_neg hcr, if_neg hcr]
            exact ih g data (i + 1) c o (by omega) (by omega)
      · simp only [hi, if_false]

theorem scanLoop_end (data : List Nat) (i : Nat) (c : List Nat) (o : List Json)
    (hi : ¬ i < data.length) : scanLoop data i c o = .ok (o, data) := by
  rw [scanLoop, scanLoopF]
  simp only [hi, if_false]

theorem scanLoop_digit (data : List Nat) (i : Nat) (c : List Nat) (o : List Json)
    (hi : i < data.length) (hd : isDigitB (data.getD i 0) = true) :
    scanLoop data i c o = scanLoop data (i + 1) (c ++ [data.getD i 0]) o := by
  rw [scanLoop, scanLoopF]
  simp only [hi, if_true, hd]
  exact scanLoopF_irrel _ _ data (i + 1) _ o (by omega) (by omega)

theorem scanLoop_skip (data : List Nat) (i : Nat) (c : List Nat) (o : List Json)
    (hi : i < data.length) (hd : ¬ isDigitB (data.getD i 0))
    (hcr : data.getD i 0 = 10 ∨ data.getD i 0 = 13) :
    scanLoop data i c o = scanLoop data (i + 1) c o := by
  rw [scanLoop, scanLoopF]
  simp only [hi, if_true, hd, Bool.false_eq_true, if_false]
  have hcr' : ¬ (data.getD i 0 ≠ 10 ∧ data.getD i 0 ≠ 13) := by tauto
  rw [if_neg hcr']
  exact scanLoopF_irrel _ _ data (i + 1) c o (by omega) (by omega)

theorem scanLoop_break_empty (data : List Nat) (i : Nat) (c : List Nat) (o : List Json)
    (hi : i < data.length) (hd : ¬ isDigitB (data.getD i 0))
    (hcr : data.getD i 0 ≠ 10 ∧ data.getD i 0 ≠ 13) (hpc : parseIntOpt c = none) :
    scanLoop data i c o = .ok (o, data) := by
  rw [scanLoop, scanLoopF]
  simp only [hi, if_true, hd, Bool.false_eq_true, if_false]
  rw [if_pos hcr]
  simp only [hpc]

theorem scanLoop_short (data : List Nat) (i : Nat) (c : List Nat) (o : List Json) (n : Nat)
    (hi : i < data.length) (hd : ¬ isDigitB (data.getD i 0))
    (hcr : data.getD i 0 ≠ 10 ∧ data.getD i 0 ≠ 13) (hpc : parseIntOpt c = some n)
    (hle : ¬ n + i ≤ data.length) :
    scanLoop data i c o = .ok (o, data) := by
  rw [scanLoop, scanLoopF]
  simp only [hi, if_true, hd, Bool.false_eq_true, if_false]
  rw [if_pos hcr]
  simp only [hpc, hle, if_false]

theorem scanLoop_parse (data : List Nat) (i : Nat) (c : List Nat) (o : List Json) (n : Nat)
    (obj : Json) (hi : i < data.length) (hd : ¬ isDigitB (data.getD i 0))
    (hcr : data.getD i 0 ≠ 10 ∧ data.getD i 0 ≠ 13) (hpc : parseIntOpt c = some n)
    (hle : n + i ≤ data.length)
    (hjp : jsonParse (utf8Decode ((data.drop i).take n)) = some obj) :
    scanLoop data i c o = scanLoop (data.drop (i + n)) 1 [] (o ++ [obj]) := by
  rw [scanLoop, scanLoopF]
  simp only [hi, if_true, hd, Bool.false_eq_true, if_false]
  rw [if_pos hcr]
  simp only [hpc, hle, if_true, hjp]
  apply scanLoopF_irrel <;> simp only [List.length_drop] <;> omega

theorem scanLoop_jsonfail (data : List Nat) (i : Nat) (c : List Nat) (o : List Json) (n : Nat)
    (hi : i < data.length) (hd : ¬ isDigitB (data.getD i 0))
    (hcr : data.getD i 0 ≠ 10 ∧ data.getD i 0 ≠ 13) (hpc : parseIntOpt c = some n)
    (hle : n + i ≤ data.length)
    (hjp : jsonParse (utf8Decode ((data.drop i).take n)) = none) :
    scanLoop data i c o = .error () := by
  rw [scanLoop, scanLoopF]
  simp only [hi, if_true, hd, Bool.false_eq_true, if_false]
  rw [if_pos hcr]
  simp only [hpc, hle, if_true, hjp]

/-! ## Round-trip of the JSON model: `jsonParse` inverts `stringify` -/

/-- The first scalar of `l` is not a digit (vacuously for empty `l`). -/
def notDigitHead : List Nat → Bool
  | [] => true
  | c :: _ => !isDigitB c

/-- Guard for the number branch of the round trip: after a serialized number
the input may not continue with a digit. -/
def numOkB : Json → List Nat → Bool
  | .num _, rest => notDigitHead rest
  | _, _ => true

theorem numOkB_cons_nondigit (m : Json) (c : Nat) (r : List Nat) (h : ¬ isDigitB c) :
    numOkB m (c :: r) = true := by
  cases m <;> simp [numOkB, notDigitHead, h]

theorem takeWhile_append_all (p : Nat → Bool) (l1 l2 : List Nat) (h : ∀ x ∈ l1, p x = true) :
    (l1 ++ l2).takeWhile p = l1 ++ l2.takeWhile p := by
  induction l1 with
  | nil => simp
  | cons x l ih =>
    simp only [List.cons_append, List.takeWhile_cons, h x (by simp), if_true,
      List.cons.injEq, true_and]
    exact ih (fun y hy => h y (by simp [hy]))

theorem dropWhile_append_all (p : Nat → Bool) (l1 l2 : List Nat) (h : ∀ x ∈ l1, p x = true) :
    (l1 ++ l2).dropWhile p = l2.dropWhile p := by
  induction l1 with
  | nil => simp
  | cons x l ih =>
    simp only [List.cons_append, List.dropWhile_cons, h x (by simp), if_true]
    exact ih (fun y hy => h y (by simp [hy]))

theorem takeWhile_not_head (p : Nat → Bool) (l : List Nat)
    (h : ∀ c r, l = c :: r → p c = false) : l.takeWhile p = [] := by
  cases l with
  | nil => rfl
  | cons c r => simp [List.takeWhile_cons, h c r rfl]

theorem dropWhile_not_head (p : Nat → Bool) (l : List Nat)
    (h : ∀ c r, l = c :: r → p c = false) : l.dropWhile p = l := by
  cases l with
  | nil => rfl
  | cons c r => simp [List.dropWhile_cons, h c r rfl]

theorem parseNum_natDigits (n : Nat) (rest : List Nat) (h : notDigitHead rest = true) :
    parseNum (natDigits n ++ rest) = some (n, rest) := by
  have hhead : ∀ c r, rest = c :: r → isDigitB c = false := by
    intro c r hr
    subst hr
    simpa [notDigitHead] using h
  have e1 : (natDigits n ++ rest).takeWhile isDigitB = natDigits n := by
    rw [takeWhile_append_all _ _ _ (natDigits_all_digit n),
      takeWhile_not_head _ _ hhead, List.append_nil]
  have e2 : (natDigits n ++ rest).dropWhile isDigitB = rest := by
    rw [dropWhile_append_all _ _ _ (natDigits_all_digit n),
      dropWhile_not_head _ _ hhead]
  simp only [parseNum, e1, e2]
  rw [if_neg (natDigits_ne_nil n), digitsVal_natDigits]

theorem parseStrBody_escape (s : List Nat) (rest : List Nat) (h : wfJStr s = true) :
    parseStrBody (escapeStr s ++ (34 :: rest)) = some (s, rest) := by
  induction s with
  | nil =>
    show parseStrBody (34 :: rest) = some ([], rest)
    rw [parseStrBody.eq_def]
    simp
  | cons c cs ih =>
    simp only [wfJStr, List.all_cons, Bool.and_eq_true] at h
    have hc32 : 32 ≤ c := by
      have := h.1
      simp only [wfJChar, Bool.and_eq_true, decide_eq_true_eq] at this
      exact this.1
    have ihr := ih (by simp [wfJStr, h.2])
    have hesc : escapeStr (c :: cs) = escapeChar c ++ escapeStr cs := by
      simp [escapeStr]
    by_cases he : c = 34 ∨ c = 92
    · have : escapeChar c = [92, c] := by
        rcases he with rfl | rfl <;> simp [escapeChar]
      rw [hesc, this]
      show parseStrBody (92 :: c :: (escapeStr cs ++ (34 :: rest))) = _
      rw [parseStrBody.eq_def]
      have he' : (c = 34 || c = 92) = true := by
        rcases he with rfl | rfl <;> simp
      simp [he', ihr]
    · have hc34 : c ≠ 34 := fun hh => he (Or.inl hh)
      have hc92 : c ≠ 92 := fun hh => he (Or.inr hh)
      have : escapeChar c = [c] := by simp [escapeChar, hc34, hc92]
      rw [hesc, this]
      show parseStrBody (c :: (escapeStr cs ++ (34 :: rest))) = _
      rw [parseStrBody.eq_def]
      simp [hc34, hc92, hc32, ihr]

theorem stringify_ne_nil (m : Json) : stringify m ≠ [] := by
  cases m with
  | null => simp [stringify]
  | bool b => cases b <;> simp [stringify]
  | num n =>
    show intStr n ≠ []
    rw [intStr]
    by_cases hn : n < 0
    · simp [hn]
    · simp only [hn, if_false]
      exact natDigits_ne_nil _
  | str s => simp [stringify]
  | arr a => simp [stringify]
  | obj o => simp [stringify]

/-- The first scalar of any serialization: one of the token-initial
characters. -/
theorem stringify_headD (m : Json) :
    (stringify m).headD 0 = 110 ∨ (stringify m).headD 0 = 116 ∨
    (stringify m).headD 0 = 102 ∨ (stringify m).headD 0 = 34 ∨
    (stringify m).headD 0 = 91 ∨ (stringify m).headD 0 = 123 ∨
    (stringify m).headD 0 = 45 ∨ isDigitB ((stringify m).headD 0) = true := by
  cases m with
  | null => simp [stringify]
  | bool b => cases b <;> simp [stringify]
  | num n =>
    have hs : stringify (Json.num n) = intStr n := rfl
    rw [hs, intStr]
    by_cases hn : n < 0
    · simp [hn]
    · rw [if_neg hn]
      rcases hd : natDigits n.natAbs with _ | ⟨c, cs⟩
      · exact absurd hd (natDigits_ne_nil _)
      · have hc := natDigits_all_digit n.natAbs c (by simp [hd])
        simp [hc]
  | str s => simp [stringify]
  | arr a => simp [stringify]
  | obj o => simp [stringify]

theorem headD_append (l1 l2 : List Nat) (d : Nat) (h : l1 ≠ []) :
    (l1 ++ l2).headD d = l1.headD d := by
  cases l1 with
  | nil => exact absurd rfl h
  | cons x l => rfl

theorem parseVal_digit_cons (fuel : Nat) (c : Nat) (rest : List Nat) (h : isDigitB c = true) :
    parseVal (fuel + 1) (c :: rest) =
      (parseNum (c :: rest)).map (fun p => (.num ((p.1 : Nat) : Int), p.2)) := by
  have hb : 47 < c ∧ c < 58 := by simpa [isDigitB] using h
  rw [parseVal]
  rw [if_neg (by omega), if_neg (by omega), if_neg (by omega), if_neg (by omega),
    if_neg (by omega), if_neg (by omega), if_neg (by omega), if_pos h]

/-- Head discrimination: a serialization never begins with a separator or a
closing bracket or whitespace. -/
theorem stringify_headD_ne (m : Json) :
    (stringify m).headD 0 ≠ 93 ∧ (stringify m).headD 0 ≠ 125 ∧
    (stringify m).headD 0 ≠ 44 := by
  rcases stringify_headD m with h | h | h | h | h | h | h | h
  · rw [h]; omega
  · rw [h]; omega
  · rw [h]; omega
  · rw [h]; omega
  · rw [h]; omega
  · rw [h]; omega
  · rw [h]; omega
  · simp only [isDigitB, Bool.and_eq_true, decide_eq_true_eq] at h
    omega

mutual
/-- Round trip of the value parser on the encoder's output. -/
theorem stringify_rt (m : Json) (hwf : wfJson m = true) (fuel : Nat)
    (hfuel : jdepth m ≤ fuel) (rest : List Nat) (hrest : numOkB m rest = true) :
    parseVal fuel (stringify m ++ rest) = some (m, rest) := by
  obtain ⟨f, rfl⟩ : ∃ f, fuel = f + 1 := by
    cases m <;> simp [jdepth] at hfuel <;> exact ⟨fuel - 1, by omega⟩
  cases m with
  | null => rfl
  | bool b => cases b <;> rfl
  | num n =>
    have hnd : notDigitHead rest = true := by simpa [numOkB] using hrest
    show parseVal (f + 1) (intStr n ++ rest) = some (.num n, rest)
    rw [intStr]
    by_cases hn : n < 0
    · rw [if_pos hn, List.cons_append]
      have e45 : parseVal (f + 1) (45 :: (natDigits n.natAbs ++ rest)) =
          (parseNum (natDigits n.natAbs ++ rest)).map
            (fun p => (.num (-((p.1 : Nat) : Int)), p.2)) := rfl
      rw [e45, parseNum_natDigits _ _ hnd]
      have hcast : -(((n.natAbs : Nat) : Int)) = n := by omega
      simp only [Option.map_some', hcast]
    · rw [if_neg hn]
      rcases hd : natDigits n.natAbs with _ | ⟨c, cs⟩
      · exact absurd hd (natDigits_ne_nil _)
      · have hc := natDigits_all_digit n.natAbs c (by simp [hd])
        rw [List.cons_append, parseVal_digit_cons f c (cs ++ rest) hc,
          ← List.cons_append, ← hd, parseNum_natDigits _ _ hnd]
        have hcast : (((n.natAbs : Nat) : Int)) = n := by omega
        simp only [Option.map_some', hcast]
  | str s =>
    have hwf' : wfJStr s = true := by simpa [wfJson] using hwf
    show parseVal (f + 1) ((34 :: (escapeStr s ++ [34])) ++ rest) = some (.str s, rest)
    rw [List.cons_append]
    have e : parseVal (f + 1) (34 :: ((escapeStr s ++ [34]) ++ rest)) =
        (parseStrBody ((escapeStr s ++ [34]) ++ rest)).map (fun p => (.str p.1, p.2)) := rfl
    rw [e, List.append_assoc, show ([34] ++ rest : List Nat) = 34 :: rest from rfl,
      parseStrBody_escape s rest hwf']
    rfl
  | arr a =>
    cases a with
    | nil => rfl
    | cons x tl =>
      have hwfa : wfJArr (JArr.cons x tl) = true := by simpa [wfJson] using hwf
      have hfa : jdepthA (JArr.cons x tl) ≤ f := by
        simp only [jdepth] at hfuel; omega
      have e0 : stringify (Json.arr (JArr.cons x tl)) ++ rest
          = 91 :: (stringifyArr (JArr.cons x tl) ++ (93 :: rest)) := by
        show (91 :: (stringifyArr (JArr.cons x tl) ++ [93])) ++ rest = _
        simp [List.append_assoc]
      rw [e0]
      have e1 : parseVal (f + 1) (91 :: (stringifyArr (JArr.cons x tl) ++ (93 :: rest))) =
          if (stringifyArr (JArr.cons x tl) ++ (93 :: rest)).headD 0 = 93
          then some (.arr .nil, (stringifyArr (JArr.cons x tl) ++ (93 :: rest)).tail)
          else (parseItems f (stringifyArr (JArr.cons x tl) ++ (93 :: rest))).map
            (fun p => (.arr p.1, p.2)) := rfl
      have hne93 : (stringifyArr (JArr.cons x tl) ++ (93 :: rest)).headD 0 ≠ 93 := by
        obtain ⟨t, ht⟩ : ∃ t, stringifyArr (JArr.cons x tl) = stringify x ++ t := by
          cases tl with
          | nil => exact ⟨[], by simp [stringifyArr]⟩
          | cons y tl' => exact ⟨44 :: stringifyArr (JArr.cons y tl'), rfl⟩
        rw [ht, List.append_assoc, headD_append _ _ _ (stringify_ne_nil x)]
        exact (stringify_headD_ne x).1
      rw [e1, if_neg hne93,
        stringifyArr_rt (JArr.cons x tl) hwfa (by simp) f hfa rest]
      rfl
  | obj o =>
    cases o with
    | nil => rfl
    | cons k v tl =>
      have hwfo : wfJObj (JObj.cons k v tl) = true := by simpa [wfJson] using hwf
      have hfo : jdepthO (JObj.cons k v tl) ≤ f := by
        simp only [jdepth] at hfuel; omega
      have e0 : stringify (Json.obj (JObj.cons k v tl)) ++ rest
          = 123 :: (stringifyObj (JObj.cons k v tl) ++ (125 :: rest)) := by
        show (123 :: (stringifyObj (JObj.cons k v tl) ++ [125])) ++ rest = _
        simp [List.append_assoc]
      rw [e0]
      have e1 : parseVal (f + 1) (123 :: (stringifyObj (JObj.cons k v tl) ++ (125 :: rest))) =
          if (stringifyObj (JObj.cons k v tl) ++ (125 :: rest)).headD 0 = 125
          then some (.obj .nil, (stringifyObj (JObj.cons k v tl) ++ (125 :: rest)).tail)
          else (parseMembers f (stringifyObj (JObj.cons k v tl) ++ (125 :: rest))).map
            (fun p => (.obj p.1, p.2)) := rfl
      have hne125 : (stringifyObj (JObj.cons k v tl) ++ (125 :: rest)).headD 0 ≠ 125 := by
        cases tl <;> simp [stringifyObj]
      rw [e1, if_neg hne125,
        stringifyObj_rt (JObj.cons k v tl) hwfo (by simp) f hfo rest]
      rfl

/-- Round trip of the array-element parser on the encoder's output. -/
theorem stringifyArr_rt (a : JArr) (hwf : wfJArr a = true) (hne : a ≠ JArr.nil)
    (fuel : Nat) (hfuel : jdepthA a ≤ fuel) (rest : List Nat) :
    parseItems fuel (stringifyArr a ++ (93 :: rest)) = some (a, rest) := by
  cases a with
  | nil => exact absurd rfl hne
  | cons x tl =>
    obtain ⟨f, rfl⟩ : ∃ f, fuel = f + 1 := by
      simp only [jdepthA] at hfuel
      exact ⟨fuel - 1, by omega⟩
    have hwx : wfJson x = true := by
      simp only [wfJArr, Bool.and_eq_true] at hwf; exact hwf.1
    have hfx : jdepth x ≤ f := by
      simp only [jdepthA] at hfuel; omega
    cases tl with
    | nil =>
      show parseItems (f + 1) (stringify x ++ (93 :: rest)) = _
      rw [parseItems,
        stringify_rt x hwx f hfx (93 :: rest) (numOkB_cons_nondigit x 93 rest (by decide))]
      rfl
    | cons y tl' =>
      have hwtl : wfJArr (JArr.cons y tl') = true := by
        simp only [wfJArr, Bool.and_eq_true] at hwf
        simp [wfJArr, hwf.2.1, hwf.2.2]
      have hftl : jdepthA (JArr.cons y tl') ≤ f := by
        simp only [jdepthA] at hfuel ⊢; omega
      have e0 : stringifyArr (JArr.cons x (JArr.cons y tl')) ++ (93 :: rest)
          = stringify x ++ (44 :: (stringifyArr (JArr.cons y tl') ++ (93 :: rest))) := by
        show (stringify x ++ 44 :: stringifyArr (JArr.cons y tl')) ++ (93 :: rest) = _
        simp [List.append_assoc]
      rw [e0, parseItems,
        stringify_rt x hwx f hfx _ (numOkB_cons_nondigit x 44 _ (by decide))]
      show (parseItems f (stringifyArr (JArr.cons y tl') ++ (93 :: rest))).map
        (fun q => (JArr.cons x q.1, q.2)) = _
      rw [stringifyArr_rt (JArr.cons y tl') hwtl (by simp) f hftl rest]
      rfl

/-- Round trip of the object-member parser on the encoder's output. -/
theorem stringifyObj_rt (o : JObj) (hwf : wfJObj o = true) (hne : o ≠ JObj.nil)
    (fuel : Nat) (hfuel : jdepthO o ≤ fuel) (rest : List Nat) :
    parseMembers fuel (stringifyObj o ++ (125 :: rest)) = some (o, rest) := by
  cases o with
  | nil => exact absurd rfl hne
  | cons k v tl =>
    obtain ⟨f, rfl⟩ : ∃ f, fuel = f + 1 := by
      simp only [jdepthO] at hfuel
      exact ⟨fuel - 1, by omega⟩
    have hwk : wfJStr k = true := by
      simp only [wfJObj, Bool.and_eq_true] at hwf; exact hwf.1.1
    have hwv : wfJson v = true := by
      simp only [wfJObj, Bool.and_eq_true] at hwf; exact hwf.1.2
    have hfv : jdepth v ≤ f := by
      simp only [jdepthO] at hfuel; omega
    cases tl with
    | nil =>
      have e0 : stringifyObj (JObj.cons k v JObj.nil) ++ (125 :: rest)
          = 34 :: (escapeStr k ++ (34 :: (58 :: (stringify v ++ (125 :: rest))))) := by
        show ((34 :: (escapeStr k ++ [34])) ++ 58 :: stringify v) ++ (125 :: rest) = _
        simp [List.append_assoc]
      rw [e0, parseMembers]
      have h34 : ((34 : Nat) ::
          (escapeStr k ++ (34 :: (58 :: (stringify v ++ (125 :: rest)))))).headD 0 = 34 := rfl
      rw [if_pos h34]
      show (parseStrBody (escapeStr k ++ (34 :: (58 :: (stringify v ++ (125 :: rest)))))).bind
        _ = _
      rw [parseStrBody_escape k _ hwk]
      show (parseVal f (stringify v ++ (125 :: rest))).bind _ = _
      rw [stringify_rt v hwv f hfv (125 :: rest) (numOkB_cons_nondigit v 125 rest (by decide))]
      rfl
    | cons k' v' tl' =>
      have hwtl : wfJObj (JObj.cons k' v' tl') = true := by
        simp only [wfJObj, Bool.and_eq_true] at hwf
        simp [wfJObj, hwf.2.1.1, hwf.2.1.2, hwf.2.2]
      have hftl : jdepthO (JObj.cons k' v' tl') ≤ f := by
        simp only [jdepthO] at hfuel ⊢; omega
      have e0 : stringifyObj (JObj.cons k v (JObj.cons k' v' tl')) ++ (125 :: rest)
          = 34 :: (escapeStr k ++ (34 :: (58 :: (stringify v ++
              (44 :: (stringifyObj (JObj.cons k' v' tl') ++ (125 :: rest))))))) := by
        show ((34 :: (escapeStr k ++ [34])) ++ 58 :: stringify v ++
            44 :: stringifyObj (JObj.cons k' v' tl')) ++ (125 :: rest) = _
        simp [List.append_assoc]
      rw [e0, parseMembers]
      have h34 : ((34 : Nat) :: (escapeStr k ++ (34 :: (58 :: (stringify v ++
          (44 :: (stringifyObj (JObj.cons k' v' tl') ++ (125 :: rest)))))))).headD 0 = 34 := rfl
      rw [if_pos h34]
      show (parseStrBody (escapeStr k ++ (34 :: (58 :: (stringify v ++
        (44 :: (stringifyObj (JObj.cons k' v' tl') ++ (125 :: rest)))))))).bind _ = _
      rw [parseStrBody_escape k _ hwk]
      show (parseVal f (stringify v ++
        (44 :: (stringifyObj (JObj.cons k' v' tl') ++ (125 :: rest))))).bind _ = _
      rw [stringify_rt v hwv f hfv _ (numOkB_cons_nondigit v 44 _ (by decide))]
      show (parseMembers f (stringifyObj (JObj.cons k' v' tl') ++ (125 :: rest))).map
        (fun q => (JObj.cons k v q.1, q.2)) = _
      rw [stringifyObj_rt (JObj.cons k' v' tl') hwtl (by simp) f hftl rest]
      rfl
end

mutual
/-- The serialization is at least as long as the fuel the parser needs. -/
theorem jdepth_le (m : Json) : jdepth m ≤ (stringify m).length := by
  cases m with
  | null => simp [jdepth, stringify]
  | bool b => cases b <;> simp [jdepth, stringify]
  | num n =>
    have := List.length_pos.mpr (stringify_ne_nil (Json.num n))
    simp only [jdepth]
    omega
  | str s => simp [jdepth, stringify]
  | arr a =>
    have := jdepthA_le a
    simp only [jdepth, stringify, List.length_cons, List.length_append]
    omega
  | obj o =>
    have := jdepthO_le o
    simp only [jdepth, stringify, List.length_cons, List.length_append]
    omega

/-- Fuel bound for arrays. -/
theorem jdepthA_le (a : JArr) : jdepthA a ≤ (stringifyArr a).length + 1 := by
  cases a with
  | nil => simp [jdepthA, stringifyArr]
  | cons x tl =>
    have hx := jdepth_le x
    have hx1 := List.length_pos.mpr (stringify_ne_nil x)
    cases tl with
    | nil =>
      simp only [jdepthA, jdepthA.eq_1, stringifyArr]
      omega
    | cons y tl' =>
      have htl := jdepthA_le (JArr.cons y tl')
      simp only [jdepthA, stringifyArr, List.length_append, List.length_cons] at htl ⊢
      omega

/-- Fuel bound for objects. -/
theorem jdepthO_le (o : JObj) : jdepthO o ≤ (stringifyObj o).length + 1 := by
  cases o with
  | nil => simp [jdepthO, stringifyObj]
  | cons k v tl =>
    have hv := jdepth_le v
    cases tl with
    | nil =>
      simp only [jdepthO, jdepthO.eq_1, stringifyObj, List.length_append, List.length_cons]
      omega
    | cons k' v' tl' =>
      have htl := jdepthO_le (JObj.cons k' v' tl')
      simp only [jdepthO, stringifyObj, List.length_append, List.length_cons] at htl ⊢
      omega
end

/-- `JSON.parse` inverts `JSON.stringify` on well-formed values. -/
theorem jsonParse_stringify (m : Json) (hwf : wfJson m = true) :
    jsonParse (stringify m) = some m := by
  have hnw : isWsB ((stringify m).headD 0) = false := by
    rcases stringify_headD m with h | h | h | h | h | h | h | h
    · rw [h]; rfl
    · rw [h]; rfl
    · rw [h]; rfl
    · rw [h]; rfl
    · rw [h]; rfl
    · rw [h]; rfl
    · rw [h]; rfl
    · simp only [isDigitB, Bool.and_eq_true, decide_eq_true_eq] at h
      simp only [isWsB]
      simp only [Bool.or_eq_false_iff, decide_eq_false_iff_not]
      omega
  have hws : ∀ c' r', stringify m = c' :: r' → isWsB c' = false := by
    intro c' r' h'
    have hh : (stringify m).headD 0 = c' := by rw [h']; rfl
    rw [← hh]
    exact hnw
  have hdw : (stringify m).dropWhile isWsB = stringify m := dropWhile_not_head _ _ hws
  have hp : parseVal ((stringify m).length + 1) (stringify m) = some (m, []) := by
    have hrt := stringify_rt m hwf ((stringify m).length + 1)
      (by have := jdepth_le m; omega) []
      (by cases m <;> simp [numOkB, notDigitHead])
    simpa using hrt
  simp only [jsonParse, hdw, hp]
  rfl

/-! ## Well-formedness of serializations, and the shape of wire frames -/

theorem natDigits_wf (n : Nat) : wfStr (natDigits n) = true := by
  simp only [wfStr, List.all_eq_true]
  intro c hc
  have := natDigits_all_digit n c hc
  simp only [isDigitB, Bool.and_eq_true, decide_eq_true_eq] at this
  simp only [wfChar, decide_eq_true_eq]
  omega

theorem wfStr_append (a b : List Nat) :
    wfStr (a ++ b) = (wfStr a && wfStr b) := by
  simp [wfStr, List.all_append]

theorem wfStr_cons (c : Nat) (l : List Nat) :
    wfStr (c :: l) = (wfChar c && wfStr l) := by
  simp [wfStr]

theorem wfStr_nil : wfStr [] = true := rfl

theorem escapeStr_wf (s : List Nat) (h : wfJStr s = true) : wfStr (escapeStr s) = true := by
  induction s with
  | nil => rfl
  | cons c cs ih =>
    simp only [wfJStr, List.all_cons, Bool.and_eq_true] at h
    have hc : wfChar c = true := by
      have := h.1
      simp only [wfJChar, Bool.and_eq_true, Bool.or_eq_true, decide_eq_true_eq] at this
      simp only [wfChar, decide_eq_true_eq]
      omega
    have e : escapeStr (c :: cs) = escapeChar c ++ escapeStr cs := by simp [escapeStr]
    rw [e, wfStr_append, ih (by simp [wfJStr, h.2]), Bool.and_true]
    have hc' : c < 1114112 := by simpa [wfChar] using hc
    by_cases he : c = 34 || c = 92
    · simp only [escapeChar, he, if_true]
      rw [wfStr_cons, wfStr_cons, wfStr_nil]
      simp [wfChar, hc']
    · simp only [escapeChar, he, Bool.false_eq_true, if_false]
      simp [wfStr_cons, wfStr_nil, hc]

mutual
/-- Serializations of well-formed values are well-formed strings. -/
theorem stringify_wf (m : Json) (h : wfJson m = true) : wfStr (stringify m) = true := by
  cases m with
  | null => rfl
  | bool b => cases b <;> rfl
  | num n =>
    show wfStr (intStr n) = true
    rw [intStr]
    by_cases hn : n < 0
    · rw [if_pos hn]
      have := natDigits_wf n.natAbs
      simp [wfStr, wfChar] at this ⊢
      exact fun c hc => by have := this c hc; omega
    · rw [if_neg hn]; exact natDigits_wf n.natAbs
  | str s =>
    have h' : wfJStr s = true := by simpa [wfJson] using h
    show wfStr (34 :: (escapeStr s ++ [34])) = true
    have := escapeStr_wf s h'
    simp [wfStr, wfChar] at this ⊢
    exact fun c hc => this c hc
  | arr a =>
    have h' : wfJArr a = true := by simpa [wfJson] using h
    show wfStr (91 :: (stringifyArr a ++ [93])) = true
    have := stringifyArr_wf a h'
    simp [wfStr, wfChar] at this ⊢
    exact fun c hc => this c hc
  | obj o =>
    have h' : wfJObj o = true := by simpa [wfJson] using h
    show wfStr (123 :: (stringifyObj o ++ [125])) = true
    have := stringifyObj_wf o h'
    simp [wfStr, wfChar] at this ⊢
    exact fun c hc => this c hc

/-- Serializations of well-formed arrays are well-formed strings. -/
theorem stringifyArr_wf (a : JArr) (h : wfJArr a = true) : wfStr (stringifyArr a) = true := by
  cases a with
  | nil => rfl
  | cons x tl =>
    simp only [wfJArr, Bool.and_eq_true] at h
    cases tl with
    | nil => exact stringify_wf x h.1
    | cons y tl' =>
      show wfStr (stringify x ++ 44 :: stringifyArr (JArr.cons y tl')) = true
      have h1 := stringify_wf x h.1
      have h2 := stringifyArr_wf (JArr.cons y tl') h.2
      rw [wfStr_append, h1, Bool.true_and]
      simp only [wfStr, List.all_cons, Bool.and_eq_true]
      exact ⟨by simp [wfChar], h2⟩

/-- Serializations of well-formed objects are well-formed strings. -/
theorem stringifyObj_wf (o : JObj) (h : wfJObj o = true) : wfStr (stringifyObj o) = true := by
  cases o with
  | nil => rfl
  | cons k v tl =>
    simp only [wfJObj, Bool.and_eq_true] at h
    have hk := escapeStr_wf k h.1.1
    have hv := stringify_wf v h.1.2
    cases tl with
    | nil =>
      show wfStr (34 :: (escapeStr k ++ [34]) ++ 58 :: stringify v) = true
      simp [wfStr_cons, wfStr_append, wfStr_nil, hk, hv, wfChar]
    | cons k' v' tl' =>
      have htl := stringifyObj_wf (JObj.cons k' v' tl') h.2
      show wfStr (34 :: (escapeStr k ++ [34]) ++ 58 :: stringify v ++
        44 :: stringifyObj (JObj.cons k' v' tl')) = true
      simp [wfStr_cons, wfStr_append, wfStr_nil, hk, hv, htl, wfChar]
end

/-- The byte encoding of one encoded frame is its wire form. -/
theorem utf8Encode_dazeusify (m : Json) : utf8Encode (dazeusify m) = wireBytes m := by
  rw [dazeusify, wireBytes, frameCore, utf8Encode_append, utf8Encode_append,
    utf8Encode_ascii (natDigits _) (by
      intro c hc
      have := natDigits_all_digit _ c hc
      simp only [isDigitB, Bool.and_eq_true, decide_eq_true_eq] at this
      omega),
    utf8Encode_ascii [13, 10] (by intro c hc; simp at hc; omega), List.append_assoc]

/-- The payload bytes of an object frame start with the `{` byte. -/
theorem payload_head_obj (o : JObj) :
    ∃ t, utf8Encode (stringify (Json.obj o)) = 123 :: t := by
  refine ⟨utf8Encode (stringifyObj o ++ [125]), ?_⟩
  show utf8Encode (123 :: (stringifyObj o ++ [125])) = _
  rw [utf8Encode_cons, encChar_ascii 123 (by omega)]
  rfl

/-- Well-formed frames have nonempty payloads. -/
theorem payload_ne_nil (m : Json) : utf8Encode (stringify m) ≠ [] := by
  intro h
  rcases hs : stringify m with _ | ⟨c, cs⟩
  · exact stringify_ne_nil m hs
  · rw [hs, utf8Encode_cons] at h
    rcases List.append_eq_nil.mp h with ⟨h1, _⟩
    have : encChar c ≠ [] := by
      rw [encChar]
      split_ifs <;> simp
    exact this h1

/-- A frame the codec accepts is an object with a well-formed serialization;
its payload bytes start with `{`. -/
theorem frameOK_payload (m : Json) (h : frameOK m = true) :
    wfJson m = true ∧ ∃ t, utf8Encode (stringify m) = 123 :: t := by
  cases m with
  | obj o => exact ⟨by simpa [frameOK] using h, payload_head_obj o⟩
  | null => simp [frameOK] at h
  | bool b => simp [frameOK] at h
  | num n => simp [frameOK] at h
  | str s => simp [frameOK] at h
  | arr a => simp [frameOK] at h

/-! ## What the scanning loop does on a prefix of a well-formed stream -/

theorem scan_skip_sep_aux (sep s : List Nat) (hsep : ∀ b ∈ sep, b = 10 ∨ b = 13) :
    ∀ k idx (c : List Nat) (o : List Json), idx ≤ sep.length → sep.length - idx = k →
    scanLoop (sep ++ s) idx c o = scanLoop (sep ++ s) sep.length c o := by
  intro k
  induction k with
  | zero =>
    intro idx c o h1 h2
    have he : idx = sep.length := by omega
    rw [he]
  | succ k ih =>
    intro idx c o h1 h2
    have hlt : idx < sep.length := by omega
    have hgl : (sep ++ s).getD idx 0 = sep.getD idx 0 := List.getD_append _ _ _ _ hlt
    have hb : sep.getD idx 0 = 10 ∨ sep.getD idx 0 = 13 := by
      apply hsep
      rw [List.getD_eq_getElem sep 0 hlt]
      exact List.getElem_mem hlt
    have hi : idx < (sep ++ s).length := by
      simp only [List.length_append]; omega
    have hnd : ¬ isDigitB ((sep ++ s).getD idx 0) = true := by
      rw [hgl]; rcases hb with h | h <;> rw [h] <;> decide
    rw [scanLoop_skip _ _ _ _ hi hnd (by rw [hgl]; exact hb)]
    exact ih (idx + 1) c o (by omega) (by omega)

theorem scan_skip_sep (sep s : List Nat) (hsep : ∀ b ∈ sep, b = 10 ∨ b = 13) (idx : Nat)
    (c : List Nat) (o : List Json) (hidx : idx ≤ sep.length) :
    scanLoop (sep ++ s) idx c o = scanLoop (sep ++ s) sep.length c o :=
  scan_skip_sep_aux sep s hsep (sep.length - idx) idx c o hidx rfl

theorem scan_digits (d : List Nat) (hd : ∀ x ∈ d, isDigitB x = true) :
    ∀ (pre s c : List Nat) (o : List Json),
    scanLoop (pre ++ (d ++ s)) pre.length c o =
      scanLoop (pre ++ (d ++ s)) (pre.length + d.length) (c ++ d) o := by
  induction d with
  | nil => intro pre s c o; simp
  | cons x d' ih =>
    intro pre s c o
    have hi : pre.length < (pre ++ (x :: d' ++ s)).length := by
      simp [List.length_append]
    have hgx : (pre ++ (x :: d' ++ s)).getD pre.length 0 = x := by
      rw [List.getD_append_right _ _ _ _ (le_refl _)]
      simp
    have hdx : isDigitB ((pre ++ (x :: d' ++ s)).getD pre.length 0) = true := by
      rw [hgx]; exact hd x (by simp)
    rw [scanLoop_digit _ _ _ _ hi hdx, hgx]
    have e : pre ++ (x :: d' ++ s) = (pre ++ [x]) ++ (d' ++ s) := by simp
    have e2 : pre.length + 1 = (pre ++ [x]).length := by simp
    rw [e, e2, ih (fun y hy => hd y (by simp [hy])) (pre ++ [x]) s (c ++ [x]) o]
    have i_eq : (pre ++ [x]).length + d'.length = pre.length + (x :: d').length := by
      simp [List.length_append]
      omega
    have c_eq : (c ++ [x]) ++ d' = c ++ (x :: d') := by simp
    rw [i_eq, c_eq]

theorem prefix_split (s l1 l2 : List Nat) (h : s <+: l1 ++ l2) (hlen : l1.length ≤ s.length) :
    ∃ s', s = l1 ++ s' ∧ s' <+: l2 := by
  have h1 : l1 <+: s := List.prefix_of_prefix_length_le (List.prefix_append l1 l2) h hlen
  obtain ⟨s', rfl⟩ := h1
  refine ⟨s', rfl, ?_⟩
  obtain ⟨t, ht⟩ := h
  rw [List.append_assoc] at ht
  exact ⟨t, List.append_cancel_left ht⟩

theorem specD_cons (m : Json) (tl : List Json) (s : List Nat) :
    specD (m :: tl) s =
      if s.length < (frameCore m).length then ([], s)
      else
        match s.drop (frameCore m).length with
        | [] => ([m], [])
        | [13] => ([m], [13])
        | 13 :: 10 :: s2 =>
          (m :: (specD tl s2).1,
           if (specD tl s2).1.isEmpty then 13 :: 10 :: s2 else (specD tl s2).2)
        | other => ([m], other) := rfl

/-- The central characterization: started inside a CRLF separator run before a
prefix `s` of the wire stream of frames `ms`, the scanning loop emits exactly
the frames whose digits and payload are fully contained in `s` and retains the
tail as `specD` describes (the whole input when nothing was emitted). -/
theorem scanSpec (ms : List Json) : (∀ m ∈ ms, frameOK m = true) →
    ∀ (s sep : List Nat), s <+: wireStream ms → (∀ b ∈ sep, b = 10 ∨ b = 13) →
    ∀ idx, idx ≤ sep.length → ∀ acc,
    scanLoop (sep ++ s) idx [] acc =
      .ok (acc ++ (specD ms s).1,
           if (specD ms s).1.isEmpty then sep ++ s else (specD ms s).2) := by
  induction ms with
  | nil =>
    intro _ s sep hs hsep idx hidx acc
    have hs0 : s = [] := List.prefix_nil.mp (by simpa [wireStream] using hs)
    subst hs0
    rw [scan_skip_sep sep [] hsep idx [] acc hidx,
      scanLoop_end _ _ _ _ (by simp)]
    simp [specD]
  | cons m tl ih =>
    intro hok s sep hs hsep idx hidx acc
    have hokm : frameOK m = true := hok m (by simp)
    have hoktl : ∀ m' ∈ tl, frameOK m' = true := fun m' hm' => hok m' (by simp [hm'])
    obtain ⟨hwfm, plt, hplt⟩ := frameOK_payload m hokm
    have hfull : wireStream (m :: tl) =
        natDigits (utf8Encode (stringify m)).length ++
          (utf8Encode (stringify m) ++ (13 :: 10 :: wireStream tl)) := by
      show (wireBytes m :: (tl.map wireBytes)).flatten = _
      simp [wireBytes, frameCore, List.append_assoc, wireStream]
    rw [hfull] at hs
    by_cases hlen : s.length < (frameCore m).length
    · -- not enough bytes for the digits plus the payload: nothing is emitted
      have espec : specD (m :: tl) s = ([], s) := by
        rw [specD.eq_def]
        simp only [if_pos hlen]
      rw [espec]
      simp only [List.isEmpty_nil, if_true, List.append_nil]
      by_cases hsd : s.length ≤ (natDigits (utf8Encode (stringify m)).length).length
      · -- the cut is inside the digit run
        have hsdg : s <+: natDigits (utf8Encode (stringify m)).length :=
          List.prefix_of_prefix_length_le hs (List.prefix_append _ _) hsd
        have hall : ∀ x ∈ s, isDigitB x = true := fun x hx =>
          natDigits_all_digit _ x (hsdg.sublist.subset hx)
        rw [scan_skip_sep sep s hsep idx [] acc hidx,
          show sep ++ s = sep ++ (s ++ []) by simp,
          scan_digits s hall sep [] [] acc,
          scanLoop_end _ _ _ _ (by simp [List.length_append])]
      · -- the digits are complete but the payload is not: the loop reaches the
        -- `{` byte, computes the length, finds the buffer short, and breaks
        push_neg at hsd
        obtain ⟨p', rfl, hp'⟩ := prefix_split s _ _ hs (by omega)
        have hp'len : p'.length < (utf8Encode (stringify m)).length := by
          have h2 := hlen
          simp only [frameCore, List.length_append] at h2
          omega
        have hp'pl : p' <+: utf8Encode (stringify m) :=
          List.prefix_of_prefix_length_le hp' (List.prefix_append _ _) (by omega)
        obtain ⟨c, t', rfl⟩ : ∃ c t', p' = c :: t' := by
          rcases p' with _ | ⟨c, t'⟩
          · exfalso
            simp only [List.length_append, List.length_nil] at hsd
            omega
          · exact ⟨c, t', rfl⟩
        have hc123 : c = 123 := by
          rw [hplt] at hp'pl
          exact (List.cons_prefix_cons.mp hp'pl).1
        subst hc123
        rw [scan_skip_sep sep _ hsep idx [] acc hidx,
          scan_digits _ (natDigits_all_digit _) sep (123 :: t') [] acc]
        set DG := natDigits (utf8Encode (stringify m)).length with hDG
        have hassoc : sep ++ (DG ++ (123 :: t')) = (sep ++ DG) ++ (123 :: t') := by
          simp [List.append_assoc]
        have hi : sep.length + DG.length < (sep ++ (DG ++ (123 :: t'))).length := by
          simp [List.length_append]
        have hgetd : (sep ++ (DG ++ (123 :: t'))).getD (sep.length + DG.length) 0 = 123 := by
          rw [hassoc]
          rw [show sep.length + DG.length = (sep ++ DG).length by simp,
            List.getD_append_right _ _ _ _ (le_refl _)]
          simp
        rw [scanLoop_short _ _ _ _ (utf8Encode (stringify m)).length hi
          (by rw [hgetd]; decide) (by rw [hgetd]; exact ⟨by decide, by decide⟩)
          (by simpa using parseIntOpt_natDigits (utf8Encode (stringify m)).length)
          (by
            have h3 := hp'len
            simp only [List.length_cons] at h3
            simp only [List.length_append, List.length_cons]
            omega)]
    · -- digits and payload are fully present: the frame is emitted and the
      -- loop continues after the payload
      push_neg at hlen
      have hcorelen : (frameCore m).length =
          (natDigits (utf8Encode (stringify m)).length).length +
            (utf8Encode (stringify m)).length := by
        simp [frameCore]
      obtain ⟨s', rfl, hs'⟩ := prefix_split s
        (natDigits (utf8Encode (stringify m)).length ++ utf8Encode (stringify m))
        (13 :: 10 :: wireStream tl)
        (by rw [← List.append_assoc] at hs; exact hs)
        (by simp only [List.length_append]; omega)
      set DG := natDigits (utf8Encode (stringify m)).length with hDG
      set PL := utf8Encode (stringify m) with hPL
      have hdrop : ((DG ++ PL) ++ s').drop (frameCore m).length = s' := by
        rw [show frameCore m = DG ++ PL from rfl]
        exact List.drop_left _ _
      have hplpos : 0 < PL.length := List.length_pos.mpr (payload_ne_nil m)
      -- run the loop up to the `{` byte
      rw [scan_skip_sep sep _ hsep idx [] acc hidx,
        show (DG ++ PL) ++ s' = DG ++ (PL ++ s') by simp,
        scan_digits DG (natDigits_all_digit _) sep (PL ++ s') [] acc]
      have hi : sep.length + DG.length < (sep ++ (DG ++ (PL ++ s'))).length := by
        simp only [List.length_append]
        omega
      have hgetd : (sep ++ (DG ++ (PL ++ s'))).getD (sep.length + DG.length) 0 = 123 := by
        rw [show sep ++ (DG ++ (PL ++ s')) = (sep ++ DG) ++ (PL ++ s') by simp,
          show sep.length + DG.length = (sep ++ DG).length by simp,
          List.getD_append_right _ _ _ _ (le_refl _)]
        rw [hplt]
        simp
      have hslice : (((sep ++ (DG ++ (PL ++ s'))).drop (sep.length + DG.length)).take
          PL.length) = PL := by
        rw [show sep ++ (DG ++ (PL ++ s')) = (sep ++ DG) ++ (PL ++ s') by simp,
          show sep.length + DG.length = (sep ++ DG).length by simp,
          List.drop_left, List.take_left]
      have hjson : jsonParse (utf8Decode PL) = some m := by
        rw [hPL, utf8Decode_utf8Encode _ (stringify_wf m hwfm), jsonParse_stringify m hwfm]
      rw [scanLoop_parse _ _ _ _ PL.length m hi
        (by rw [hgetd]; decide) (by rw [hgetd]; exact ⟨by decide, by decide⟩)
        (by simpa using parseIntOpt_natDigits PL.length)
        (by simp only [List.length_append]; omega)
        (by rw [hslice]; exact hjson)]
      have hdrop2 : (sep ++ (DG ++ (PL ++ s'))).drop (sep.length + DG.length + PL.length) =
          s' := by
        rw [show sep ++ (DG ++ (PL ++ s')) = ((sep ++ DG) ++ PL) ++ s' by simp,
          show sep.length + DG.length + PL.length = ((sep ++ DG) ++ PL).length by
            simp only [List.length_append]]
        exact List.drop_left _ _
      rw [hdrop2]
      have hlen' : (frameCore m).length ≤ (DG ++ (PL ++ s')).length := by
        rw [← List.append_assoc]; exact hlen
      have hdropr : (DG ++ (PL ++ s')).drop (frameCore m).length = s' := by
        rw [← List.append_assoc]; exact hdrop
      -- case split on how much of the CRLF terminator (and beyond) arrived
      rcases s' with _ | ⟨c, s''⟩
      · -- nothing after the payload
        have espec : specD (m :: tl) (DG ++ (PL ++ ([] : List Nat))) = ([m], []) := by
          rw [specD_cons, if_neg (not_lt.mpr hlen'), hdropr]
        rw [espec, scanLoop_end _ _ _ _ (by simp)]
        simp
      · have hc13 : c = 13 := (List.cons_prefix_cons.mp hs').1
        subst hc13
        rcases s'' with _ | ⟨c2, s2⟩
        · -- only the CR of the terminator arrived
          have espec : specD (m :: tl) (DG ++ (PL ++ [13])) = ([m], [13]) := by
            rw [specD_cons, if_neg (not_lt.mpr hlen'), hdropr]
          rw [espec, scanLoop_end _ _ _ _ (by simp)]
          simp
        · -- the full CRLF arrived; the loop continues on the rest of the stream
          have hc10 : c2 = 10 :=
            (List.cons_prefix_cons.mp (List.cons_prefix_cons.mp hs').2).1
          subst hc10
          have hs2 : s2 <+: wireStream tl :=
            (List.cons_prefix_cons.mp (List.cons_prefix_cons.mp hs').2).2
          have espec : specD (m :: tl) (DG ++ (PL ++ (13 :: 10 :: s2))) =
              (m :: (specD tl s2).1,
               if (specD tl s2).1.isEmpty then 13 :: 10 :: s2 else (specD tl s2).2) := by
            rw [specD_cons, if_neg (not_lt.mpr hlen'), hdropr]
          rw [espec,
            show (13 : Nat) :: 10 :: s2 = [13, 10] ++ s2 from rfl,
            ih hoktl s2 [13, 10] hs2
              (by
                intro b hb
                simp only [List.mem_cons, List.not_mem_nil, or_false] at hb
                tauto)
              1 (by decide) (acc ++ [m])]
          simp only [List.isEmpty_cons, if_false, Bool.false_eq_true]
          by_cases hre : (specD tl s2).1.isEmpty
          · simp [hre]
          · simp [hre]

/-! ## Lifting the loop characterization to `dezeusify` and the data handler -/

theorem utf8Decode_ascii_append (a x : List Nat) (h : ∀ c ∈ a, c < 0x80) :
    utf8Decode (a ++ x) = a ++ utf8Decode x := by
  induction a with
  | nil => simp
  | cons c cs ih =>
    rw [List.cons_append, utf8Decode_cons_ascii c _ (h c (by simp)),
      ih (fun y hy => h y (by simp [hy]))]
    rfl

theorem crlf_ascii (l : List Nat) (h : ∀ b ∈ l, b = 10 ∨ b = 13) : ∀ c ∈ l, c < 0x80 := by
  intro c hc
  rcases h c hc with rfl | rfl <;> omega

theorem utf8Encode_crlf (l : List Nat) (h : ∀ b ∈ l, b = 10 ∨ b = 13) :
    utf8Encode l = l := utf8Encode_ascii l (crlf_ascii l h)

theorem wfStr_of_append_left (a b : List Nat) (h : wfStr (a ++ b) = true) : wfStr a = true := by
  rw [wfStr_append] at h
  simp only [Bool.and_eq_true] at h
  exact h.1

theorem wfStr_of_append_right (a b : List Nat) (h : wfStr (a ++ b) = true) : wfStr b = true := by
  rw [wfStr_append] at h
  simp only [Bool.and_eq_true] at h
  exact h.2

theorem wfStr_crlf (l : List Nat) (h : ∀ b ∈ l, b = 10 ∨ b = 13) : wfStr l = true := by
  simp only [wfStr, List.all_eq_true]
  intro c hc
  rcases h c hc with rfl | rfl <;> rfl

theorem utf8Encode_mono (a b : List Nat) (h : a <+: b) : utf8Encode a <+: utf8Encode b := by
  obtain ⟨t, rfl⟩ := h
  rw [utf8Encode_append]
  exact List.prefix_append _ _

theorem utf8Encode_cons_ne_nil (c : Nat) (l : List Nat) : utf8Encode (c :: l) ≠ [] := by
  rw [utf8Encode_cons]
  intro h
  rcases List.append_eq_nil.mp h with ⟨h1, _⟩
  have : encChar c ≠ [] := by
    rw [encChar]
    split_ifs <;> simp
  exact this h1

theorem utf8Encode_len_lt (a b : List Nat) (h : a <+: b) (hne : a ≠ b) :
    (utf8Encode a).length < (utf8Encode b).length := by
  obtain ⟨t, rfl⟩ := h
  rcases t with _ | ⟨c, t'⟩
  · exact absurd (by simp) hne
  · rw [utf8Encode_append, List.length_append]
    have := utf8Encode_cons_ne_nil c t'
    have hpos : 0 < (utf8Encode (c :: t')).length := List.length_pos.mpr this
    omega

theorem utf8Encode_le_len (a b : List Nat) (h : a <+: b) :
    (utf8Encode a).length ≤ (utf8Encode b).length := by
  obtain ⟨t, rfl⟩ := h
  rw [utf8Encode_append, List.length_append]
  omega

/-- The digit-and-payload part of a frame is the byte encoding of the
corresponding string part. -/
theorem frameCore_encode (m : Json) :
    frameCore m = utf8Encode (natDigits (utf8Encode (stringify m)).length ++ stringify m) := by
  rw [frameCore, utf8Encode_append, utf8Encode_ascii (natDigits _) (by
    intro c hc
    have := natDigits_all_digit _ c hc
    simp only [isDigitB, Bool.and_eq_true, decide_eq_true_eq] at this
    omega)]

theorem frameCore_pos (m : Json) : 0 < (frameCore m).length := by
  rw [frameCore]
  have := natDigits_ne_nil (utf8Encode (stringify m)).length
  have := List.length_pos.mpr this
  simp only [List.length_append]
  omega

theorem streamStr_cons (m : Json) (tl : List Json) :
    streamStr (m :: tl) =
      (natDigits (utf8Encode (stringify m)).length ++ stringify m) ++
        (13 :: 10 :: streamStr tl) := by
  show dazeusify m ++ streamStr tl = _
  rw [dazeusify]
  simp [List.append_assoc]

theorem wireStream_encode (ms : List Json) : wireStream ms = utf8Encode (streamStr ms) := by
  induction ms with
  | nil => rfl
  | cons m tl ih =>
    show wireBytes m ++ wireStream tl = _
    rw [ih, show streamStr (m :: tl) = dazeusify m ++ streamStr tl from rfl,
      utf8Encode_append, utf8Encode_dazeusify]

theorem specD_nil_arg (ms : List Json) : specD ms [] = ([], []) := by
  cases ms with
  | nil => rfl
  | cons m tl =>
    rw [specD_cons, if_pos]
    simpa using frameCore_pos m

theorem utf8Encode_cons_ascii (c : Nat) (l : List Nat) (h : c < 0x80) :
    utf8Encode (c :: l) = c :: utf8Encode l := by
  rw [utf8Encode_cons, encChar_ascii c h]
  rfl

set_option maxHeartbeats 2000000 in
/-- String-level reading of `specD` on a prefix of the stream: the emitted
frames are an initial segment, and the retained bytes are the encoding of a
CRLF run followed by a well-formed string that continues the stream. -/
theorem specDStr (msr : List Json) : (∀ m ∈ msr, frameOK m = true) →
    ∀ (u t : List Nat), wfStr u = true → u ++ t = streamStr msr →
    ∃ k sepRem pfx sepNext,
      (specD msr (utf8Encode u)).1 = msr.take k ∧
      (∀ b ∈ sepRem, b = 10 ∨ b = 13) ∧
      (∀ b ∈ sepNext, b = 10 ∨ b = 13) ∧
      wfStr pfx = true ∧
      pfx ++ t = sepNext ++ streamStr (msr.drop k) ∧
      (∀ m' tl', msr.drop k = m' :: tl' →
        (utf8Encode pfx).length < (frameCore m').length) ∧
      ((specD msr (utf8Encode u)).1.isEmpty = true → k = 0 ∧ sepRem = [] ∧ pfx = u) ∧
      ((specD msr (utf8Encode u)).1.isEmpty = false →
        (specD msr (utf8Encode u)).2 = sepRem ++ utf8Encode pfx) := by
  induction msr with
  | nil =>
    intro _ u t hwu heq
    have hu0 : u = [] := by
      have := congrArg List.length heq
      simp only [List.length_append, streamStr, List.map_nil, List.flatten_nil,
        List.length_nil] at this
      exact List.length_eq_zero.mp (by omega)
    have ht0 : t = [] := by
      rw [hu0] at heq
      simpa [streamStr] using heq
    subst hu0; subst ht0
    refine ⟨0, [], [], [], ?_, by simp, by simp, rfl, by simp [streamStr], ?_, ?_, ?_⟩
    · simp [utf8Encode_nil, specD_nil_arg]
    · intro m' tl' h; simp at h
    · intro _; exact ⟨rfl, rfl, rfl⟩
    · intro h
      rw [utf8Encode_nil, specD_nil_arg] at h
      simp at h
  | cons m tl ih =>
    intro hok u t hwu heq
    have hokm : frameOK m = true := hok m (by simp)
    have hoktl : ∀ m' ∈ tl, frameOK m' = true := fun m' hm' => hok m' (by simp [hm'])
    rw [streamStr_cons] at heq
    set coreS := natDigits (utf8Encode (stringify m)).length ++ stringify m with hcoreS
    have hcoreB : frameCore m = utf8Encode coreS := frameCore_encode m
    by_cases hlt : u.length < coreS.length
    · -- the string is cut strictly inside the digits or the payload
      have hupre : u <+: coreS :=
        List.prefix_of_prefix_length_le ⟨t, heq⟩ (List.prefix_append _ _) (by omega)
      have hbyte : (utf8Encode u).length < (frameCore m).length := by
        rw [hcoreB]
        exact utf8Encode_len_lt u coreS hupre
          (fun hh => by rw [hh] at hlt; omega)
      have espec : specD (m :: tl) (utf8Encode u) = ([], utf8Encode u) := by
        rw [specD_cons, if_pos hbyte]
      refine ⟨0, [], u, [], ?_, by simp, by simp, hwu, ?_, ?_, ?_, ?_⟩
      · simp [espec]
      · rw [List.drop_zero, streamStr_cons, List.nil_append]
        exact heq
      · intro m' tl' hd
        rw [List.drop_zero] at hd
        cases hd
        exact hbyte
      · intro _; exact ⟨rfl, rfl, rfl⟩
      · intro h
        rw [espec] at h
        simp at h
    · -- the digits and payload are complete in the string
      push_neg at hlt
      obtain ⟨u1, rfl, hu1⟩ := prefix_split u coreS (13 :: 10 :: streamStr tl) ⟨t, heq⟩ hlt
      have heq1 : u1 ++ t = 13 :: 10 :: streamStr tl := by
        rw [List.append_assoc] at heq
        exact List.append_cancel_left heq
      have hwu1 : wfStr u1 = true := wfStr_of_append_right _ _ hwu
      have hencu : utf8Encode (coreS ++ u1) = frameCore m ++ utf8Encode u1 := by
        rw [utf8Encode_append, hcoreB]
      have hcond : ¬ (utf8Encode (coreS ++ u1)).length < (frameCore m).length := by
        rw [hencu, List.length_append]
        omega
      have hdropB : (utf8Encode (coreS ++ u1)).drop (frameCore m).length = utf8Encode u1 := by
        rw [hencu]
        exact List.drop_left _ _
      rcases u1 with _ | ⟨c1, u2⟩
      · -- exactly the digits and payload: one frame emitted, nothing retained
        have espec : specD (m :: tl) (utf8Encode (coreS ++ [])) = ([m], []) := by
          rw [specD_cons, if_neg hcond, hdropB, utf8Encode_nil]
        have espec2 : specD (m :: tl) (utf8Encode coreS) = ([m], []) := by
          simpa using espec
        refine ⟨1, [], [], [13, 10], ?_, by simp, ?_, rfl, ?_, ?_, ?_, ?_⟩
        · simp [espec2]
        · intro b hb
          simp only [List.mem_cons, List.not_mem_nil, or_false] at hb
          tauto
        · rw [List.nil_append]
          simp only [List.drop_succ_cons, List.drop_zero]
          rw [show ([13, 10] : List Nat) ++ streamStr tl = 13 :: 10 :: streamStr tl from rfl]
          simpa using heq1
        · intro m' tl' hd
          simp only [List.drop_succ_cons, List.drop_zero] at hd
          subst hd
          simpa using frameCore_pos m'
        · intro h
          rw [espec] at h
          simp at h
        · intro _
          simp [espec, espec2, utf8Encode_nil]
      · have hc1 : c1 = 13 := by
          have := heq1
          simp only [List.cons_append, List.cons.injEq] at this
          exact this.1
        subst hc1
        rcases u2 with _ | ⟨c2, u3⟩
        · -- digits, payload and the CR of the terminator
          have hencu1 : utf8Encode [13] = [13] := rfl
          have espec : specD (m :: tl) (utf8Encode (coreS ++ [13])) = ([m], [13]) := by
            rw [specD_cons, if_neg hcond, hdropB, hencu1]
          have ht : t = 10 :: streamStr tl := by
            have := heq1
            simp only [List.cons_append, List.cons.injEq, List.nil_append] at this
            exact this.2
          refine ⟨1, [13], [], [10], ?_, by simp, by simp, rfl, ?_, ?_, ?_, ?_⟩
          · simp [espec]
          · rw [List.nil_append, ht]
            rfl
          · intro m' tl' hd
            simp only [List.drop_succ_cons, List.drop_zero] at hd
            subst hd
            simpa using frameCore_pos m'
          · intro h
            rw [espec] at h
            simp at h
          · intro _
            rw [espec, utf8Encode_nil]
            rfl
        · -- the full terminator arrived: recurse on the remaining stream
          have hc2 : c2 = 10 := by
            have := heq1
            simp only [List.cons_append, List.cons.injEq] at this
            exact this.2.1
          subst hc2
          have heq3 : u3 ++ t = streamStr tl := by
            have := heq1
            simp only [List.cons_append, List.cons.injEq] at this
            exact this.2.2
          have hwu3 : wfStr u3 = true := by
            have h1 := wfStr_of_append_right coreS (13 :: 10 :: u3) hwu
            simp only [wfStr, List.all_cons, Bool.and_eq_true] at h1
            exact h1.2.2
          have hencu1 : utf8Encode (13 :: 10 :: u3) = 13 :: 10 :: utf8Encode u3 := by
            rw [utf8Encode_cons_ascii 13 _ (by omega), utf8Encode_cons_ascii 10 _ (by omega)]
          obtain ⟨k', sepRem', pfx', sepNext', A', B1', B2', W', C', D', E1', E2'⟩ :=
            ih hoktl u3 t hwu3 heq3
          have espec : specD (m :: tl) (utf8Encode (coreS ++ (13 :: 10 :: u3))) =
              (m :: (specD tl (utf8Encode u3)).1,
               if (specD tl (utf8Encode u3)).1.isEmpty then 13 :: 10 :: utf8Encode u3
               else (specD tl (utf8Encode u3)).2) := by
            rw [specD_cons, if_neg hcond, hdropB, hencu1]
          by_cases hre : (specD tl (utf8Encode u3)).1.isEmpty
          · -- the tail of the input holds no further complete frame
            obtain ⟨hk0, _, hpfx⟩ := E1' hre
            subst hk0
            refine ⟨1, [13, 10], pfx', sepNext', ?_, ?_, B2', W', ?_, ?_, ?_, ?_⟩
            · rw [espec, A']
              simp [hre]
            · intro b hb
              simp only [List.mem_cons, List.not_mem_nil, or_false] at hb
              tauto
            · simpa using C'
            · intro m' tl' hd
              simp only [List.drop_succ_cons] at hd
              apply D' m' tl'
              simpa using hd
            · intro h
              rw [espec] at h
              simp at h
            · intro _
              rw [espec, if_pos hre, hpfx]
              rfl
          · obtain ⟨k'', hk⟩ : ∃ k'', k' = k'' := ⟨k', rfl⟩
            refine ⟨k' + 1, sepRem', pfx', sepNext', ?_, B1', B2', W', ?_, ?_, ?_, ?_⟩
            · rw [espec, A']
              simp [hre]
            · simpa using C'
            · intro m' tl' hd
              simp only [List.drop_succ_cons] at hd
              exact D' m' tl' hd
            · intro h
              rw [espec] at h
              simp at h
            · intro _
              rw [espec, if_neg (by simpa using hre)]
              exact E2' (by simpa using hre)

/-- One `dezeusify` call under the stream invariant: the retained state is a
CRLF run `rSep` followed by a well-formed string `rPfx`; together with the
incoming chunk `c` and the future input `t` the string continues an expected
CRLF run `sepF` followed by the wire encoding of the remaining frames.  The
call emits an initial segment of the frames and re-establishes the shape. -/
theorem dezeusify_step (msr : List Json) (hok : ∀ m ∈ msr, frameOK m = true)
    (rSep rPfx sepF c t : List Nat)
    (hrSep : ∀ b ∈ rSep, b = 10 ∨ b = 13)
    (hsepF : ∀ b ∈ sepF, b = 10 ∨ b = 13)
    (hwPfx : wfStr rPfx = true) (hwc : wfStr c = true)
    (hcat : (rPfx ++ c) ++ t = sepF ++ streamStr msr) :
    ∃ k rSep' rPfx' sepF',
      dezeusify (rSep ++ rPfx) c = .ok (msr.take k, rSep' ++ rPfx') ∧
      (∀ b ∈ rSep', b = 10 ∨ b = 13) ∧
      (∀ b ∈ sepF', b = 10 ∨ b = 13) ∧
      wfStr rPfx' = true ∧
      rPfx' ++ t = sepF' ++ streamStr (msr.drop k) ∧
      (∀ m' tl', msr.drop k = m' :: tl' →
        (utf8Encode rPfx').length < (frameCore m').length) := by
  have hww : wfStr (rPfx ++ c) = true := by
    rw [wfStr_append, hwPfx, hwc]
    rfl
  by_cases hle : (rPfx ++ c).length ≤ sepF.length
  · -- the whole chunk is part of the expected separator run
    have htake : rPfx ++ c = sepF.take (rPfx ++ c).length := by
      have h1 : ((rPfx ++ c) ++ t).take (rPfx ++ c).length = rPfx ++ c :=
        List.take_left _ _
      rw [hcat, List.take_append_eq_append_take, Nat.sub_eq_zero_of_le hle,
        List.take_zero, List.append_nil] at h1
      exact h1.symm
    have hwsep : ∀ b ∈ rPfx ++ c, b = 10 ∨ b = 13 := by
      intro b hb
      rw [htake] at hb
      exact hsepF b (List.mem_of_mem_take hb)
    have hT : t = sepF.drop (rPfx ++ c).length ++ streamStr msr := by
      have h2 : (rPfx ++ c) ++ t =
          (rPfx ++ c) ++ (sepF.drop (rPfx ++ c).length ++ streamStr msr) := by
        rw [hcat]
        nth_rewrite 1 [← List.take_append_drop (rPfx ++ c).length sepF]
        rw [List.append_assoc, ← htake]
      exact List.append_cancel_left h2
    have hall : ∀ b ∈ rSep ++ (rPfx ++ c), b = 10 ∨ b = 13 := by
      intro b hb
      rcases List.mem_append.mp hb with h | h
      · exact hrSep b h
      · exact hwsep b h
    have hlt128 : ∀ b ∈ rSep ++ (rPfx ++ c), b < 0x80 := by
      intro b hb
      rcases hall b hb with rfl | rfl <;> omega
    have henc1 : utf8Encode ((rSep ++ rPfx) ++ c) = rSep ++ (rPfx ++ c) := by
      rw [List.append_assoc]
      exact utf8Encode_ascii _ hlt128
    have hscan := scanSpec msr hok [] (rSep ++ (rPfx ++ c)) List.nil_prefix
      hall 0 (Nat.zero_le _) []
    rw [specD_nil_arg] at hscan
    simp only [List.isEmpty_nil, if_true, List.nil_append, List.append_nil] at hscan
    have hdecascii : utf8Decode (rSep ++ (rPfx ++ c)) = rSep ++ (rPfx ++ c) := by
      have := utf8Decode_ascii_append (rSep ++ (rPfx ++ c)) [] hlt128
      simpa [utf8Decode_nil] using this
    have hdez : dezeusify (rSep ++ rPfx) c = .ok ([], rSep ++ (rPfx ++ c)) := by
      simp only [dezeusify, henc1, hscan]
      rw [hdecascii]
    refine ⟨0, rSep ++ (rPfx ++ c), [], sepF.drop (rPfx ++ c).length,
      ?_, hall, ?_, rfl, ?_, ?_⟩
    · rw [hdez]
      simp
    · intro b hb
      exact hsepF b (List.mem_of_mem_drop hb)
    · simpa using hT
    · intro m' tl' _
      simpa [utf8Encode_nil] using frameCore_pos m'
  · -- the chunk runs past the separator into the next frames
    have hlt2 : sepF.length ≤ (rPfx ++ c).length := by omega
    have h2 : sepF = (rPfx ++ c).take sepF.length := by
      have h1 : ((rPfx ++ c) ++ t).take sepF.length = (rPfx ++ c).take sepF.length := by
        rw [List.take_append_eq_append_take, Nat.sub_eq_zero_of_le hlt2,
          List.take_zero, List.append_nil]
      rw [hcat, List.take_left] at h1
      exact h1
    have hsplit0 : rPfx ++ c = sepF ++ (rPfx ++ c).drop sepF.length := by
      conv_lhs => rw [← List.take_append_drop sepF.length (rPfx ++ c)]
      rw [← h2]
    have hut0 : (rPfx ++ c).drop sepF.length ++ t = streamStr msr := by
      have h3 := hcat
      rw [hsplit0, List.append_assoc] at h3
      exact List.append_cancel_left h3
    obtain ⟨u', hsplit, hut⟩ :
        ∃ u', rPfx ++ c = sepF ++ u' ∧ u' ++ t = streamStr msr :=
      ⟨_, hsplit0, hut0⟩
    clear hsplit0 hut0
    have hwu' : wfStr u' = true := by
      apply wfStr_of_append_right sepF u'
      rw [← hsplit]
      exact hww
    have hall2 : ∀ b ∈ rSep ++ sepF, b = 10 ∨ b = 13 := by
      intro b hb
      rcases List.mem_append.mp hb with h | h
      · exact hrSep b h
      · exact hsepF b h
    have hlt128 : ∀ b ∈ rSep ++ sepF, b < 0x80 := by
      intro b hb
      rcases hall2 b hb with rfl | rfl <;> omega
    have henc2 : utf8Encode ((rSep ++ rPfx) ++ c) = (rSep ++ sepF) ++ utf8Encode u' := by
      rw [List.append_assoc, hsplit, ← List.append_assoc, utf8Encode_append,
        utf8Encode_ascii _ hlt128]
    have hupre : utf8Encode u' <+: wireStream msr := by
      rw [wireStream_encode]
      exact utf8Encode_mono _ _ ⟨t, hut⟩
    have hscan := scanSpec msr hok (utf8Encode u') (rSep ++ sepF) hupre hall2
      0 (Nat.zero_le _) []
    simp only [List.nil_append] at hscan
    obtain ⟨k, sepRem, pfx2, sepNext, A, B1, B2, W, C, D, E1, E2⟩ :=
      specDStr msr hok u' t hwu' hut
    by_cases hemp : (specD msr (utf8Encode u')).1.isEmpty = true
    · obtain ⟨hk0, _, hpfx⟩ := E1 hemp
      have h1e : (specD msr (utf8Encode u')).1 = [] := by
        simpa using hemp
      rw [if_pos hemp, h1e] at hscan
      have hdez : dezeusify (rSep ++ rPfx) c = .ok ([], (rSep ++ sepF) ++ u') := by
        simp only [dezeusify, henc2, hscan]
        rw [utf8Decode_ascii_append _ _ hlt128, utf8Decode_utf8Encode u' hwu']
      refine ⟨0, rSep ++ sepF, u', sepNext, ?_, hall2, B2, hwu', ?_, ?_⟩
      · rw [hdez]
        simp
      · have hC := C
        rw [hpfx] at hC
        simpa [hk0] using hC
      · intro m' tl' hd
        have hD := D m' tl' (by simpa [hk0] using hd)
        rw [hpfx] at hD
        exact hD
    · have hempF : (specD msr (utf8Encode u')).1.isEmpty = false := by
        simpa using hemp
      rw [if_neg hemp, A, E2 hempF] at hscan
      have hB1lt : ∀ b ∈ sepRem, b < 0x80 := by
        intro b hb
        rcases B1 b hb with rfl | rfl <;> omega
      have hdez : dezeusify (rSep ++ rPfx) c = .ok (msr.take k, sepRem ++ pfx2) := by
        simp only [dezeusify, henc2, hscan]
        rw [utf8Decode_ascii_append _ _ hB1lt, utf8Decode_utf8Encode pfx2 W]
      exact ⟨k, sepRem, pfx2, sepNext, hdez, B1, B2, W, C, D⟩

/-- The chunked decoder on any character-boundary split of a tail of the wire
stream: starting from an invariant-shaped state it emits exactly the remaining
frames, and the final retained state is a run of CR and LF characters. -/
theorem decodeStream_inv (css : List (List Nat)) : ∀ (msr : List Json),
    (∀ m ∈ msr, frameOK m = true) →
    ∀ rSep rPfx sepF,
    (∀ b ∈ rSep, b = 10 ∨ b = 13) →
    (∀ b ∈ sepF, b = 10 ∨ b = 13) →
    wfStr rPfx = true →
    (∀ c ∈ css, wfStr c = true) →
    rPfx ++ css.flatten = sepF ++ streamStr msr →
    (∀ m' tl', msr = m' :: tl' → (utf8Encode rPfx).length < (frameCore m').length) →
    ∃ rem, decodeStream (rSep ++ rPfx) (css.map utf8Encode) = .ok (msr, rem) ∧
      ∀ b ∈ rem, b = 10 ∨ b = 13 := by
  induction css with
  | nil =>
    intro msr hok rSep rPfx sepF hrSep hsepF hw _ hcat hshort
    cases msr with
    | nil =>
      refine ⟨rSep ++ rPfx, rfl, ?_⟩
      have hr : rPfx = sepF := by
        simpa [streamStr] using hcat
      intro b hb
      rcases List.mem_append.mp hb with h | h
      · exact hrSep b h
      · rw [hr] at h
        exact hsepF b h
    | cons m tl =>
      exfalso
      have hr : rPfx = sepF ++ streamStr (m :: tl) := by
        simpa using hcat
      have hsh := hshort m tl rfl
      rw [hr, utf8Encode_append, ← wireStream_encode] at hsh
      have hws : wireStream (m :: tl) = (frameCore m ++ [13, 10]) ++ wireStream tl := by
        simp [wireStream, wireBytes]
      rw [hws] at hsh
      simp only [List.length_append] at hsh
      omega
  | cons c cst ih =>
    intro msr hok rSep rPfx sepF hrSep hsepF hw hwcs hcat hshort
    obtain ⟨k, rSep', rPfx', sepF', hstep, h1, h2, h3, h4, h5⟩ :=
      dezeusify_step msr hok rSep rPfx sepF c cst.flatten hrSep hsepF hw
        (hwcs c (by simp))
        (by rw [List.append_assoc]; simpa using hcat)
    have hdec : utf8Decode (utf8Encode c) = c :=
      utf8Decode_utf8Encode c (hwcs c (by simp))
    obtain ⟨rem, hrest, hremsep⟩ :=
      ih (msr.drop k) (fun m hm => hok m (List.mem_of_mem_drop hm)) rSep' rPfx' sepF'
        h1 h2 h3 (fun c' hc' => hwcs c' (by simp [hc'])) h4 h5
    refine ⟨rem, ?_, hremsep⟩
    show decodeStream (rSep ++ rPfx) (List.map utf8Encode (c :: cst)) = _
    rw [List.map_cons]
    simp only [decodeStream, hdec, hstep, hrest]
    rw [List.take_append_drop]

/-- The chunked decoder on a full wire stream split at character boundaries:
every frame is emitted, in order, and only CR and LF characters remain. -/
theorem decodeStream_frames (ms : List Json) (hok : ∀ m ∈ ms, frameOK m = true)
    (css : List (List Nat)) (hwf : ∀ c ∈ css, wfStr c = true)
    (hcat : css.flatten = streamStr ms) :
    ∃ rem, decodeStream [] (css.map utf8Encode) = .ok (ms, rem) ∧
      ∀ b ∈ rem, b = 10 ∨ b = 13 := by
  obtain ⟨rem, h1, h2⟩ := decodeStream_inv css ms hok [] [] []
    (by simp) (by simp) rfl hwf (by simpa using hcat)
    (fun m' tl' _ => by simpa [utf8Encode_nil] using frameCore_pos m')
  exact ⟨rem, by simpa using h1, h2⟩

/-- `received` on a run of non-event messages pops the callback queue in FIFO
order, invoking each popped callback (all real callbacks here) with its
message. -/
theorem processMsgs_replies (ms : List Json) : ∀ (st : ClientState),
    (∀ m ∈ ms, (eventOf m).isNone = true) →
    (∀ cb ∈ st.waitingCallbacks, ∃ i, cb = CB.user i) →
    ms.length ≤ st.waitingCallbacks.length →
    processMsgs st ms =
      .ok ({ st with waitingCallbacks := st.waitingCallbacks.drop ms.length },
        List.zipWith Inv.reply st.waitingCallbacks ms) := by
  induction ms with
  | nil =>
    intro st _ _ _
    simp [processMsgs]
  | cons m ms ih =>
    intro st hev hcb hlen
    have hevm : eventOf m = none := by
      have := hev m (by simp)
      simpa [Option.isNone_iff_eq_none] using this
    rcases hq : st.waitingCallbacks with _ | ⟨cb, rest⟩
    · rw [hq] at hlen
      simp at hlen
    · obtain ⟨i, hcbi⟩ := hcb cb (by rw [hq]; simp)
      have hrec : received st m =
          .ok ({ st with waitingCallbacks := rest }, [Inv.reply cb m]) := by
        simp only [received, hevm, hq, hcbi]
      have hih := ih { st with waitingCallbacks := rest }
        (fun m2 hm2 => hev m2 (by simp [hm2]))
        (fun cb2 hcb2 => hcb cb2 (by rw [hq]; simp at hcb2 ⊢; exact Or.inr hcb2))
        (by
          rw [hq] at hlen
          simp only [List.length_cons] at hlen ⊢
          omega)
      simp only [processMsgs, hrec, hih, hq]
      simp [List.zipWith]
  
/-- Splitting a `zipWith Inv.reply` along a split of the message list. -/
theorem zipWith_reply_split (t : List Json) : ∀ (cbs : List CB) (d : List Json),
    t.length ≤ cbs.length →
    List.zipWith Inv.reply cbs (t ++ d) =
      List.zipWith Inv.reply cbs t ++ List.zipWith Inv.reply (cbs.drop t.length) d := by
  induction t with
  | nil =>
    intro cbs d _
    simp
  | cons x t ih =>
    intro cbs d hlen
    cases cbs with
    | nil => simp at hlen
    | cons cb cbs =>
      simp only [List.cons_append, List.zipWith_cons_cons, List.length_cons,
        List.drop_succ_cons]
      rw [ih cbs d (by simpa using hlen)]

/-- A run of `sendReceive` calls only appends the supplied callbacks to the
FIFO. -/
theorem sendSeq_state (l : List (Json × CB)) : ∀ st : ClientState,
    (sendSeq st l).1 =
      { st with waitingCallbacks := st.waitingCallbacks ++ l.map Prod.snd } := by
  induction l with
  | nil =>
    intro st
    simp [sendSeq]
  | cons p l ih =>
    intro st
    obtain ⟨msg, cb⟩ := p
    simp only [sendSeq, sendReceive]
    rw [ih]
    simp

/-- The full client pipeline on reply frames under the stream invariant:
decoding plus dispatch pops the FIFO in order, one callback per frame, and no
other part of the state changes. -/
theorem processChunks_inv (css : List (List Nat)) : ∀ (msr : List Json),
    (∀ m ∈ msr, frameOK m = true) →
    (∀ m ∈ msr, (eventOf m).isNone = true) →
    ∀ (st : ClientState) (rSep rPfx sepF : List Nat),
    st.data = rSep ++ rPfx →
    (∀ b ∈ rSep, b = 10 ∨ b = 13) →
    (∀ b ∈ sepF, b = 10 ∨ b = 13) →
    wfStr rPfx = true →
    (∀ c ∈ css, wfStr c = true) →
    rPfx ++ css.flatten = sepF ++ streamStr msr →
    (∀ m2 tl2, msr = m2 :: tl2 → (utf8Encode rPfx).length < (frameCore m2).length) →
    (∀ cb ∈ st.waitingCallbacks, ∃ i, cb = CB.user i) →
    msr.length ≤ st.waitingCallbacks.length →
    ∃ st', processChunks st (css.map utf8Encode) =
        .ok (st', List.zipWith Inv.reply st.waitingCallbacks msr) ∧
      st'.waitingCallbacks = st.waitingCallbacks.drop msr.length ∧
      st'.listeners = st.listeners ∧
      st'.subscribedEvents = st.subscribedEvents ∧
      ∀ b ∈ st'.data, b = 10 ∨ b = 13 := by
  induction css with
  | nil =>
    intro msr hok hev st rSep rPfx sepF hdata hrSep hsepF hw _ hcat hshort hcbu hlen
    cases msr with
    | nil =>
      refine ⟨st, by simp [processChunks], by simp, rfl, rfl, ?_⟩
      have hr : rPfx = sepF := by
        simpa [streamStr] using hcat
      rw [hdata]
      intro b hb
      rcases List.mem_append.mp hb with h | h
      · exact hrSep b h
      · rw [hr] at h
        exact hsepF b h
    | cons m tl =>
      exfalso
      have hr : rPfx = sepF ++ streamStr (m :: tl) := by
        simpa using hcat
      have hsh := hshort m tl rfl
      rw [hr, utf8Encode_append, ← wireStream_encode] at hsh
      have hws : wireStream (m :: tl) = (frameCore m ++ [13, 10]) ++ wireStream tl := by
        simp [wireStream, wireBytes]
      rw [hws] at hsh
      simp only [List.length_append] at hsh
      omega
  | cons c cst ih =>
    intro msr hok hev st rSep rPfx sepF hdata hrSep hsepF hw hwcs hcat hshort hcbu hlen
    obtain ⟨k, rSep2, rPfx2, sepF2, hstep, h1, h2, h3, h4, h5⟩ :=
      dezeusify_step msr hok rSep rPfx sepF c cst.flatten hrSep hsepF hw
        (hwcs c (by simp)) (by rw [List.append_assoc]; simpa using hcat)
    have hdec : utf8Decode (utf8Encode c) = c :=
      utf8Decode_utf8Encode c (hwcs c (by simp))
    have htklen : (msr.take k).length ≤ st.waitingCallbacks.length := by
      simp only [List.length_take]
      omega
    have hpm0 := processMsgs_replies (msr.take k) { st with data := rSep2 ++ rPfx2 }
      (fun m2 hm2 => hev m2 (List.mem_of_mem_take hm2))
      (fun cb hcb => hcbu cb (by simpa using hcb))
      (by simpa using htklen)
    have hpm : processMsgs { st with data := rSep2 ++ rPfx2 } (msr.take k) =
        .ok (⟨rSep2 ++ rPfx2, st.waitingCallbacks.drop (msr.take k).length,
              st.subscribedEvents, st.listeners⟩,
          List.zipWith Inv.reply st.waitingCallbacks (msr.take k)) := hpm0
    obtain ⟨st', hrun, hq', hl', hs', hd'⟩ :=
      ih (msr.drop k) (fun m2 hm2 => hok m2 (List.mem_of_mem_drop hm2))
        (fun m2 hm2 => hev m2 (List.mem_of_mem_drop hm2))
        ⟨rSep2 ++ rPfx2, st.waitingCallbacks.drop (msr.take k).length,
          st.subscribedEvents, st.listeners⟩
        rSep2 rPfx2 sepF2 rfl h1 h2 h3
        (fun c2 hc2 => hwcs c2 (by simp [hc2])) h4 h5
        (fun cb hcb => hcbu cb (List.mem_of_mem_drop hcb))
        (by
          show (msr.drop k).length ≤ (st.waitingCallbacks.drop (msr.take k).length).length
          simp only [List.length_drop, List.length_take]
          omega)
    refine ⟨st', ?_, ?_, by simpa using hl', by simpa using hs', hd'⟩
    · show processChunks st (List.map utf8Encode (c :: cst)) = _
      rw [List.map_cons]
      simp only [processChunks, clientOnData, hdata, hdec, hstep, hpm, hrun]
      have hzip := zipWith_reply_split (msr.take k) st.waitingCallbacks (msr.drop k)
        htklen
      rw [List.take_append_drop] at hzip
      rw [hzip]
    · rw [hq']
      simp only [List.drop_drop, List.length_drop, List.length_take]
      congr 1
      omega

/-! ## The claims -/

/-- Claim C1, counterexample: the wire bytes of the single frame
`{"a":"\u00AC"}` split after byte 9 — inside the two-byte UTF-8 character —
reassemble to the frame's encoding, yet the decoder raises instead of emitting
the frame. -/
theorem dazeus_C1_counterexample :
    (utf8Encode (dazeusify (Json.obj (JObj.cons (lit "a") (Json.str [172]) JObj.nil)))).take 9 ++
      (utf8Encode (dazeusify (Json.obj (JObj.cons (lit "a") (Json.str [172]) JObj.nil)))).drop 9 =
      utf8Encode (dazeusify (Json.obj (JObj.cons (lit "a") (Json.str [172]) JObj.nil))) ∧
    decodeStream []
      [(utf8Encode (dazeusify (Json.obj (JObj.cons (lit "a") (Json.str [172]) JObj.nil)))).take 9,
       (utf8Encode (dazeusify (Json.obj (JObj.cons (lit "a") (Json.str [172]) JObj.nil)))).drop 9] =
      .error () :=
  ⟨List.take_append_drop _ _, rfl⟩

/-- Claim C1 (amended): for every sequence of chunks that splits the wire
encoding of well-formed frames at UTF-8 character boundaries — including splits
inside the length-digit run and inside the JSON payload — the incremental
decoder emits exactly the frames, in order, with no loss, duplication or
reordering, retaining only CR/LF terminator characters. -/
theorem dazeus_C1_chunked_decode (ms : List Json) (hok : ∀ m ∈ ms, frameOK m = true)
    (css : List (List Nat)) (hwf : ∀ c ∈ css, wfStr c = true)
    (hcat : css.flatten = streamStr ms) :
    ∃ rem, decodeStream [] (css.map utf8Encode) = .ok (ms, rem) ∧
      ∀ b ∈ rem, b = 10 ∨ b = 13 :=
  decodeStream_frames ms hok css hwf hcat

/-- Witness for C1 at a concrete split inside the digit-plus-payload run. -/
theorem dazeus_C1_chunked_decode_witness :
    ∃ rem, decodeStream [] ([lit "2\x7b", lit "\x7d\r\n"].map utf8Encode) =
      .ok ([Json.obj JObj.nil], rem) ∧ ∀ b ∈ rem, b = 10 ∨ b = 13 :=
  dazeus_C1_chunked_decode [Json.obj JObj.nil] (by decide)
    [lit "2\x7b", lit "\x7d\r\n"] (by decide) (by decide)

/-- Claim C2, counterexample: one request is enqueued with a real callback, the
single reply frame is delivered split inside a multi-byte UTF-8 character, and
the pipeline raises: the callback is never invoked with its reply. -/
theorem dazeus_C2_counterexample :
    ((sendReceive initialState (Json.obj JObj.nil) (CB.user 0)).1).waitingCallbacks =
      [CB.user 0] ∧
    processChunks (sendReceive initialState (Json.obj JObj.nil) (CB.user 0)).1
      [(utf8Encode (dazeusify (Json.obj (JObj.cons (lit "a") (Json.str [172]) JObj.nil)))).take 9,
       (utf8Encode (dazeusify (Json.obj (JObj.cons (lit "a") (Json.str [172]) JObj.nil)))).drop 9] =
      .error () :=
  ⟨rfl, rfl⟩

/-- Claim C2 (amended): after N `sendReceive` calls with distinct callbacks, N
well-formed non-event reply frames delivered in any chunking that splits at
UTF-8 character boundaries invoke callback i with reply frame i, in order,
exactly once each, emptying the queue. -/
theorem dazeus_C2_fifo (reqs : List Json) (ids : List Nat) (ms : List Json)
    (hlen : reqs.length = ids.length) (hN : ms.length = reqs.length)
    (_hnodup : ids.Nodup)
    (hok : ∀ m ∈ ms, replyOK m = true)
    (css : List (List Nat)) (hwf : ∀ c ∈ css, wfStr c = true)
    (hcat : css.flatten = streamStr ms) :
    ∃ st', processChunks (sendSeq initialState (reqs.zip (ids.map CB.user))).1
        (css.map utf8Encode) =
      .ok (st', List.zipWith (fun i m => Inv.reply (CB.user i) m) ids ms) ∧
      st'.waitingCallbacks = [] := by
  have hst := sendSeq_state (reqs.zip (ids.map CB.user)) initialState
  have hq : (sendSeq initialState (reqs.zip (ids.map CB.user))).1.waitingCallbacks =
      ids.map CB.user := by
    rw [hst]
    show [] ++ (reqs.zip (ids.map CB.user)).map Prod.snd = ids.map CB.user
    rw [List.nil_append]
    apply List.map_snd_zip
    rw [List.length_map]
    omega
  have hdata : (sendSeq initialState (reqs.zip (ids.map CB.user))).1.data = [] ++ [] := by
    rw [hst]
    rfl
  obtain ⟨st', hrun, hq', _, _, _⟩ :=
    processChunks_inv css ms
      (fun m hm => by
        have := hok m hm
        rw [replyOK, Bool.and_eq_true] at this
        exact this.1)
      (fun m hm => by
        have := hok m hm
        rw [replyOK, Bool.and_eq_true] at this
        exact this.2)
      (sendSeq initialState (reqs.zip (ids.map CB.user))).1 [] [] []
      hdata (by simp) (by simp) rfl hwf (by simpa using hcat)
      (fun m2 tl2 _ => by simpa [utf8Encode_nil] using frameCore_pos m2)
      (by
        rw [hq]
        intro cb hcb
        obtain ⟨i, _, rfl⟩ := List.mem_map.mp hcb
        exact ⟨i, rfl⟩)
      (by
        rw [hq, List.length_map]
        omega)
  refine ⟨st', ?_, ?_⟩
  · rw [hq, List.zipWith_map_left] at hrun
    exact hrun
  · rw [hq] at hq'
    rw [hq']
    have he : ms.length = (List.map CB.user ids).length := by
      rw [List.length_map]
      omega
    rw [he, List.drop_length]

/-- Witness for C2: one request, one reply frame in one chunk. -/
theorem dazeus_C2_fifo_witness :
    ∃ st', processChunks (sendSeq initialState
        ([Json.obj JObj.nil].zip ([7].map CB.user))).1
        ([streamStr [Json.obj (JObj.cons (lit "success") (Json.bool true) JObj.nil)]].map
          utf8Encode) =
      .ok (st', List.zipWith (fun i m => Inv.reply (CB.user i) m) [7]
        [Json.obj (JObj.cons (lit "success") (Json.bool true) JObj.nil)]) ∧
      st'.waitingCallbacks = [] :=
  dazeus_C2_fifo [Json.obj JObj.nil] [7]
    [Json.obj (JObj.cons (lit "success") (Json.bool true) JObj.nil)]
    (by decide) (by decide) (by decide) (by decide)
    [streamStr [Json.obj (JObj.cons (lit "success") (Json.bool true) JObj.nil)]]
    (by decide) (by decide)

/-- Claim C3: the encoder emits the decimal digit run of the UTF-8 byte length
of the serialized JSON (ASCII digits, no leading zero, no sign, value equal to
the payload byte count — bytes, not characters), then the JSON bytes, then
CRLF. -/
theorem dazeus_C3_encode (m : Json) :
    utf8Encode (dazeusify m) =
      natDigits (utf8Encode (stringify m)).length ++
        (utf8Encode (stringify m) ++ [13, 10]) ∧
    (∀ d ∈ natDigits (utf8Encode (stringify m)).length, isDigitB d = true) ∧
    (natDigits (utf8Encode (stringify m)).length).head? ≠ some 48 ∧
    digitsVal (natDigits (utf8Encode (stringify m)).length) =
      (utf8Encode (stringify m)).length := by
  refine ⟨?_, natDigits_all_digit _, ?_, digitsVal_natDigits _⟩
  · rw [utf8Encode_dazeusify, wireBytes, frameCore, List.append_assoc]
  · apply natDigits_head_ne_zero
    rcases hs : stringify m with _ | ⟨c, tl⟩
    · exact absurd hs (stringify_ne_nil m)
    · have hne := utf8Encode_cons_ne_nil c tl
      have hlen : (utf8Encode (c :: tl)).length ≠ 0 :=
        fun h => hne (List.length_eq_zero.mp h)
      omega

/-- Claim C4: feeding the entire encoding of a well-formed frame to the decoder
in one chunk, from an empty remainder, yields exactly that frame, with only the
CRLF terminator retained (no partial frame pending). -/
theorem dazeus_C4_roundtrip (m : Json) (h : frameOK m = true) :
    dezeusify [] (dazeusify m) = .ok ([m], [13, 10]) := by
  have hok1 : ∀ m2 ∈ [m], frameOK m2 = true := by
    intro m2 hm2
    simp only [List.mem_singleton] at hm2
    subst hm2
    exact h
  have hpre : wireBytes m <+: wireStream [m] := by
    refine ⟨[], ?_⟩
    simp [wireStream]
  have hspec : specD [m] (wireBytes m) = ([m], [13, 10]) := by
    rw [wireBytes, specD_cons, if_neg (by simp only [List.length_append]; omega),
      List.drop_left]
    rfl
  have hscan := scanSpec [m] hok1 (wireBytes m) [] hpre (by simp) 0 (by simp) []
  rw [hspec] at hscan
  have hscan2 : scanLoop (wireBytes m) 0 [] [] = .ok ([m], [13, 10]) := by
    simpa using hscan
  simp only [dezeusify, List.nil_append, utf8Encode_dazeusify, hscan2]
  rfl

/-- Witness for C4 at the empty object frame. -/
theorem dazeus_C4_roundtrip_witness :
    frameOK (Json.obj JObj.nil) = true ∧
      dezeusify [] (dazeusify (Json.obj JObj.nil)) = .ok ([Json.obj JObj.nil], [13, 10]) :=
  ⟨by decide, dazeus_C4_roundtrip (Json.obj JObj.nil) (by decide)⟩

/-- Claim C5 (code bug): the `newListener` hook's condition, written
`evt.toUpperCase() === evt && !this.subscribedEvents.indexOf(evt) !== -1`,
negates the index before comparing, so its right conjunct compares a boolean
with -1 and is always true: a second registration for an already-subscribed
upper-case name sends a second subscribe request instead of being a pure local
insert. -/
theorem dazeus_C5_hook_bug :
    (onListener initialState (lit "PRIVMSG") 1).2 = [mkSubscribeMsg (lit "PRIVMSG")] ∧
    (onListener (onListener initialState (lit "PRIVMSG") 1).1 (lit "PRIVMSG") 2).2 =
      [mkSubscribeMsg (lit "PRIVMSG")] ∧
    ((onListener (onListener initialState (lit "PRIVMSG") 1).1 (lit "PRIVMSG") 2).1).subscribedEvents =
      [lit "PRIVMSG", lit "PRIVMSG"] ∧
    hookFires [lit "PRIVMSG"] (lit "PRIVMSG") = true :=
  ⟨rfl, rfl, rfl, rfl⟩

/-- Claim C6: a received COMMAND event with params
`[net, chan, user, "build", "a house"]` dispatches to the listeners registered
under `command_build`, each invoked with the full parameter list, and to nobody
else; an event with any other name dispatches under that name unchanged. -/
theorem dazeus_C6_command_retag (st : ClientState) (net chan user : Json)
    (ev : List Nat) (hev : ev ≠ lit "COMMAND") :
    handleEvent st.listeners (Json.str (lit "COMMAND"))
        [net, chan, user, Json.str (lit "build"), Json.str (lit "a house")] =
      (st.listeners.filter (fun l => l.1 == lit "command_build")).map
        (fun l => Inv.evt l.2 (lit "command_build")
          [net, chan, user, Json.str (lit "build"), Json.str (lit "a house")]) ∧
    handleEvent st.listeners (Json.str ev)
        [net, chan, user, Json.str (lit "build"), Json.str (lit "a house")] =
      (st.listeners.filter (fun l => l.1 == ev)).map
        (fun l => Inv.evt l.2 ev
          [net, chan, user, Json.str (lit "build"), Json.str (lit "a house")]) := by
  constructor
  · have hname : dispatchName (Json.str (lit "COMMAND"))
        [net, chan, user, Json.str (lit "build"), Json.str (lit "a house")] =
        lit "command_build" := by
      rw [dispatchName, if_pos (by decide)]
      rfl
    simp only [handleEvent, hname]
  · have hname2 : dispatchName (Json.str ev)
        [net, chan, user, Json.str (lit "build"), Json.str (lit "a house")] = ev := by
      rw [dispatchName, if_neg ?_]
      · rfl
      · simpa [isCommandTag] using hev
    simp only [handleEvent, hname2]

/-- Witness for C6 with listeners registered under COMMAND, command_build and
PRIVMSG: only the command_build listener receives the COMMAND event, and a
PRIVMSG event reaches only the PRIVMSG listener. -/
theorem dazeus_C6_command_retag_witness :
    handleEvent (ClientState.mk [] [] []
        [(lit "COMMAND", 1), (lit "command_build", 2), (lit "PRIVMSG", 3)]).listeners
        (Json.str (lit "COMMAND"))
        [Json.str (lit "net"), Json.str (lit "#chan"), Json.str (lit "user"),
          Json.str (lit "build"), Json.str (lit "a house")] =
      ((ClientState.mk [] [] []
        [(lit "COMMAND", 1), (lit "command_build", 2), (lit "PRIVMSG", 3)]).listeners.filter
          (fun l => l.1 == lit "command_build")).map
        (fun l => Inv.evt l.2 (lit "command_build")
          [Json.str (lit "net"), Json.str (lit "#chan"), Json.str (lit "user"),
            Json.str (lit "build"), Json.str (lit "a house")]) ∧
    handleEvent (ClientState.mk [] [] []
        [(lit "COMMAND", 1), (lit "command_build", 2), (lit "PRIVMSG", 3)]).listeners
        (Json.str (lit "PRIVMSG"))
        [Json.str (lit "net"), Json.str (lit "#chan"), Json.str (lit "user"),
          Json.str (lit "build"), Json.str (lit "a house")] =
      ((ClientState.mk [] [] []
        [(lit "COMMAND", 1), (lit "command_build", 2), (lit "PRIVMSG", 3)]).listeners.filter
          (fun l => l.1 == lit "PRIVMSG")).map
        (fun l => Inv.evt l.2 (lit "PRIVMSG")
          [Json.str (lit "net"), Json.str (lit "#chan"), Json.str (lit "user"),
            Json.str (lit "build"), Json.str (lit "a house")]) :=
  dazeus_C6_command_retag
    (ClientState.mk [] [] [] [(lit "COMMAND", 1), (lit "command_build", 2), (lit "PRIVMSG", 3)])
    (Json.str (lit "net")) (Json.str (lit "#chan")) (Json.str (lit "user"))
    (lit "PRIVMSG") (by decide)

/-- Claim C7, counterexample: a buffer whose digit run is empty at the byte
`x` is kept silently with no error and no close, and a declared-complete
payload that fails to parse as JSON raises a plain uncaught exception — in
neither case does the code close the connection or surface a distinct
protocol-desync error. -/
theorem dazeus_C7_counterexample :
    dezeusify [] (lit "x") = .ok ([], lit "x") ∧
    dezeusify [] (lit "1X\r\n") = .error () :=
  ⟨rfl, rfl⟩

/-- Claim C7 (amended): on a buffer whose first character is ASCII and neither
a digit nor CR/LF the decoder silently retains the whole buffer and reports
nothing; on a JSON parse failure of a declared-complete payload it raises an
uncaught exception; it never closes the connection nor raises a distinct
protocol-desync error. -/
theorem dazeus_C7_malformed (c0 : Nat) (rest : List Nat)
    (hascii : c0 < 0x80) (hnd : isDigitB c0 = false)
    (hn10 : c0 ≠ 10) (hn13 : c0 ≠ 13) (hwf : wfStr (c0 :: rest) = true) :
    dezeusify [] (c0 :: rest) = .ok ([], c0 :: rest) ∧
    dezeusify [] (lit "1X\r\n") = .error () := by
  refine ⟨?_, rfl⟩
  have hE : utf8Encode (c0 :: rest) = c0 :: utf8Encode rest :=
    utf8Encode_cons_ascii c0 rest hascii
  have hscan : scanLoop (c0 :: utf8Encode rest) 0 [] [] =
      .ok ([], c0 :: utf8Encode rest) :=
    scanLoop_break_empty _ 0 [] [] (by simp)
      (by simp [List.getD_cons_zero, hnd])
      ⟨by simpa [List.getD_cons_zero] using hn10,
       by simpa [List.getD_cons_zero] using hn13⟩ rfl
  simp only [dezeusify, List.nil_append, hE, hscan]
  rw [← hE, utf8Decode_utf8Encode _ hwf]

/-- Witness for C7 at the one-character buffer `x`. -/
theorem dazeus_C7_malformed_witness :
    dezeusify [] ((120 : Nat) :: []) = .ok ([], 120 :: []) ∧
    dezeusify [] (lit "1X\r\n") = .error () :=
  dazeus_C7_malformed 120 [] (by decide) (by decide) (by decide) (by decide) (by decide)

/-- Claim C8: a non-event message arriving while the callback queue is empty is
discarded: no callback runs, and the state — queue, subscription set, listener
registry, remainder — is returned unchanged, with no error. -/
theorem dazeus_C8_orphan (st : ClientState) (m : Json)
    (hq : st.waitingCallbacks = []) (hev : eventOf m = none) :
    received st m = .ok (st, []) := by
  simp only [received, hev, hq]

/-- Witness for C8 on a fresh client. -/
theorem dazeus_C8_orphan_witness :
    received initialState (Json.obj JObj.nil) = .ok (initialState, []) :=
  dazeus_C8_orphan initialState (Json.obj JObj.nil) rfl rfl

/-- Claim C9: after `join('net1', '#chan', cb)` with no other requests
outstanding, feeding the exact bytes `17{"success":true}\r\n` invokes that
callback exactly once with the object `{success:true}` (the frame's declared
length 17 includes the CR, which `JSON.parse` tolerates as whitespace). -/
theorem dazeus_C9_join :
    (joinCall initialState (lit "net1") (lit "#chan") (CB.user 7)).2 =
      [joinMsg (lit "net1") (lit "#chan")] ∧
    clientOnData (joinCall initialState (lit "net1") (lit "#chan") (CB.user 7)).1
        (lit "17\x7b\"success\":true\x7d\r\n") =
      .ok (ClientState.mk [10] [] [] [],
        [Inv.reply (CB.user 7)
          (Json.obj (JObj.cons (lit "success") (Json.bool true) JObj.nil))]) :=
  ⟨rfl, rfl⟩

/-- Claim C10: a COMMAND event whose params array has fewer than four elements
is dispatched under the synthetic name `command_undefined` — not under COMMAND
and not under any per-command name. -/
theorem dazeus_C10_command_undefined (st : ClientState) (ps : List Json)
    (hlen : ps.length < 4) :
    dispatchName (Json.str (lit "COMMAND")) ps = lit "command_undefined" ∧
    handleEvent st.listeners (Json.str (lit "COMMAND")) ps =
      (st.listeners.filter (fun l => l.1 == lit "command_undefined")).map
        (fun l => Inv.evt l.2 (lit "command_undefined") ps) := by
  have hget : ps.get? 3 = none := List.get?_eq_none.mpr (by omega)
  have hname : dispatchName (Json.str (lit "COMMAND")) ps = lit "command_undefined" := by
    rw [dispatchName, if_pos (by decide), hget]
    rfl
  exact ⟨hname, by simp only [handleEvent, hname]⟩

/-- Witness for C10 with an empty params array and a listener registered under
`command_undefined`. -/
theorem dazeus_C10_command_undefined_witness :
    dispatchName (Json.str (lit "COMMAND")) [] = lit "command_undefined" ∧
    handleEvent (ClientState.mk [] [] [] [(lit "command_undefined", 5)]).listeners
        (Json.str (lit "COMMAND")) [] =
      ((ClientState.mk [] [] [] [(lit "command_undefined", 5)]).listeners.filter
        (fun l => l.1 == lit "command_undefined")).map
        (fun l => Inv.evt l.2 (lit "command_undefined") []) :=
  dazeus_C10_command_undefined (ClientState.mk [] [] [] [(lit "command_undefined", 5)]) []
    (by decide)

end DaZeus
